import Mathlib

/-!
# Verification of the asynchronous directory-size engine of `dir-tree`

Shallow embedding of the size-computation core of the `dir-tree` repository
(`src/core/size.rs`, `src/app/size_runtime.rs`, and the corresponding
orchestration in `src/main.rs`):

* hard-link classification (`classify_file`), device checks (`is_same_device`),
* the stack-based recursive subtree walker (`recursive_dir_size`),
* the per-job single-level worker enumeration (`processJob`),
* the generation-filtered update application (`apply_size_update`),
* the seeding of a computation from the tree and caches
  (`start_size_computation`),
* the deepest-first O(n) cascade (`finalize_ready_dirs`).

Conventions of the embedding:

* Paths are abstract identifiers (`Nat`); a Rust `HashMap<PathBuf, V>` whose
  iteration order is irrelevant is a function `Nat → Option V`; `HashSet` used
  only for membership is `Nat → Bool` or a `List Nat`.
* The hard-link inode map `HashMap<(u64,u64), u64>` is an association list
  (`InodeMap`); its `len()` is observable, so it cannot be a mere function.
  `entry(k).or_insert(v)` is `InodeMap.orInsert`.
* `u64` values are `Nat`s; `saturating_add` is `satAdd` (clamps at
  `u64MAX = 2^64 - 1`); the `Iterator::sum` used for hard-link bytes performs
  ordinary `u64` addition, which in release builds wraps modulo `2^64`
  (`wrapAdd` / `hardlinkBytes`).
* The shared cancellation flag (an atomic read with relaxed ordering) is
  modelled as a constant `Bool` for the duration of one walk: the claims under
  study all concern runs during which the flag has a fixed value.
* Filesystem I/O is modelled by data: an `FsEntry` tree in which each fallible
  syscall result (`metadata`, `read_dir`, `symlink_metadata`) is an `Option`.
-/

/-- `2^64`, the modulus of `u64` arithmetic. -/
def u64SIZE : Nat := 18446744073709551616

/-- `u64::MAX = 2^64 - 1`. -/
def u64MAX : Nat := 18446744073709551615

/-- Rust `u64::saturating_add`: clamps at `u64::MAX`.  (For operands below
`2^64`, `a.saturating_add(b) = min (a + b) u64MAX`.) -/
def satAdd (a b : Nat) : Nat := min (a + b) u64MAX

/-- One ordinary `u64` addition as performed by `Iterator::sum` in a release
build: the mathematical sum reduced modulo `2^64`. -/
def wrapAdd (a b : Nat) : Nat := (a + b) % u64SIZE

/-- Inode identity: `(device, inode)`. -/
abbrev InodeKey := Nat × Nat

/-- `InodeMap = HashMap<(u64, u64), u64>` from `src/core/size.rs`, embedded as
an association list so that `len()` (used to pick the merge base) is
observable. -/
abbrev InodeMap := List (InodeKey × Nat)

/-- `HashMap::get` on an `InodeMap` (first matching key). -/
def InodeMap.find : InodeMap → InodeKey → Option Nat
  | [], _ => none
  | kv :: rest, k => if kv.1 = k then some kv.2 else InodeMap.find rest k

/-- `map.entry(k).or_insert(v)`: insert `(k, v)` only if `k` is absent. -/
def InodeMap.orInsert (m : InodeMap) (k : InodeKey) (v : Nat) : InodeMap :=
  match m.find k with
  | some _ => m
  | none => m ++ [(k, v)]

/-- `for (k, v) in other { base.entry(k).or_insert(v) }` — the first-seen-wins
merge used everywhere in the engine. -/
def InodeMap.mergeInto (base other : InodeMap) : InodeMap :=
  other.foldl (fun b kv => b.orInsert kv.1 kv.2) base

/-- The keys of an inode map are pairwise distinct (a `HashMap` invariant). -/
def InodeMap.NodupKeys (m : InodeMap) : Prop := (m.map Prod.fst).Nodup

instance (m : InodeMap) : Decidable m.NodupKeys := by
  unfold InodeMap.NodupKeys; infer_instance

/-- The mathematical (unbounded) sum of the stored sizes. -/
def InodeMap.valuesSum (m : InodeMap) : Nat := (m.map Prod.snd).sum

/-- `merged_hardlinks.values().sum::<u64>()` in a release build: the values are
added with ordinary `u64` addition, i.e. modulo `2^64`. -/
def hardlinkBytes (m : InodeMap) : Nat := (m.map Prod.snd).foldl wrapAdd 0

-- ───────────────────────── basic arithmetic facts ─────────────────────────

theorem satAdd_le_max (a b : Nat) : satAdd a b ≤ u64MAX := min_le_right _ _

theorem satAdd_mono {a b a' b' : Nat} (ha : a ≤ a') (hb : b ≤ b') :
    satAdd a b ≤ satAdd a' b' :=
  min_le_min (Nat.add_le_add ha hb) le_rfl

theorem le_satAdd_left {a : Nat} (b : Nat) (ha : a ≤ u64MAX) : a ≤ satAdd b a := by
  unfold satAdd
  omega

theorem le_satAdd_right {a : Nat} (b : Nat) (ha : a ≤ u64MAX) : a ≤ satAdd a b := by
  unfold satAdd
  omega

theorem wrapAdd_lt (a b : Nat) : wrapAdd a b < u64SIZE := by
  unfold wrapAdd
  exact Nat.mod_lt _ (by norm_num [u64SIZE])

/-- Folding `wrapAdd` over a list computes the sum modulo `2^64`. -/
theorem foldl_wrapAdd (l : List Nat) (a : Nat) (ha : a < u64SIZE) :
    l.foldl wrapAdd a = (a + l.sum) % u64SIZE := by
  induction l generalizing a with
  | nil => simpa using (Nat.mod_eq_of_lt ha).symm
  | cons x xs ih =>
    simp only [List.foldl_cons, List.sum_cons]
    rw [ih (wrapAdd a x) (wrapAdd_lt a x)]
    unfold wrapAdd
    rw [Nat.mod_add_mod, Nat.add_assoc]

theorem hardlinkBytes_eq_mod (m : InodeMap) :
    hardlinkBytes m = m.valuesSum % u64SIZE := by
  unfold hardlinkBytes InodeMap.valuesSum
  rw [foldl_wrapAdd _ 0 (by norm_num [u64SIZE])]
  simp

theorem hardlinkBytes_of_lt {m : InodeMap} (h : m.valuesSum < u64SIZE) :
    hardlinkBytes m = m.valuesSum := by
  rw [hardlinkBytes_eq_mod, Nat.mod_eq_of_lt h]

theorem hardlinkBytes_le_valuesSum (m : InodeMap) :
    hardlinkBytes m ≤ m.valuesSum := by
  rw [hardlinkBytes_eq_mod]
  exact Nat.mod_le _ _

-- ───────────────────────── inode map lemmas ─────────────────────────

theorem InodeMap.find_append (m₁ m₂ : InodeMap) (k : InodeKey) :
    InodeMap.find (m₁ ++ m₂) k = (m₁.find k).orElse (fun _ => m₂.find k) := by
  induction m₁ with
  | nil => simp [InodeMap.find]
  | cons kv rest ih =>
    by_cases h : kv.1 = k <;> simp [InodeMap.find, h, ih]

theorem InodeMap.find_orInsert (m : InodeMap) (k k' : InodeKey) (v : Nat) :
    (m.orInsert k v).find k' =
      (m.find k').orElse (fun _ => if k = k' ∧ (m.find k).isNone then some v else none) := by
  unfold InodeMap.orInsert
  cases hm : m.find k with
  | some w =>
    cases h' : m.find k' <;> simp [hm, h']
  | none =>
    rw [InodeMap.find_append]
    cases h' : m.find k' with
    | some w => simp [h']
    | none =>
      by_cases hk : k = k' <;> simp [InodeMap.find, hk, hm]

/-- Lookup in a first-seen-wins merge: the base's binding wins; keys only in
`other` get `other`'s first binding. -/
theorem InodeMap.find_mergeInto (base other : InodeMap) (k : InodeKey) :
    (base.mergeInto other).find k = (base.find k).orElse (fun _ => other.find k) := by
  induction other generalizing base with
  | nil => simp [InodeMap.mergeInto, InodeMap.find]
  | cons kv rest ih =>
    simp only [InodeMap.mergeInto, List.foldl_cons] at *
    rw [ih]
    rw [InodeMap.find_orInsert]
    by_cases hk : kv.1 = k
    · subst hk
      cases hb : base.find kv.1 with
      | some w => simp [InodeMap.find, hb]
      | none => simp [InodeMap.find, hb]
    · cases hb : base.find k with
      | some w => simp [InodeMap.find, hb, hk, Ne.symm hk]
      | none => simp [InodeMap.find, hb, hk, Ne.symm hk]


theorem InodeMap.find_isSome_iff_mem (m : InodeMap) (k : InodeKey) :
    (m.find k).isSome ↔ k ∈ m.map Prod.fst := by
  induction m with
  | nil => simp [InodeMap.find]
  | cons kv rest ih =>
    simp only [List.map_cons, List.mem_cons]
    by_cases h : kv.1 = k
    · simp [InodeMap.find, h]
    · simp only [InodeMap.find, if_neg h]
      rw [ih]
      constructor
      · exact Or.inr
      · intro hm
        rcases hm with hm | hm
        · exact absurd hm.symm h
        · exact hm

theorem InodeMap.find_eq_none_iff (m : InodeMap) (k : InodeKey) :
    m.find k = none ↔ k ∉ m.map Prod.fst := by
  rw [← InodeMap.find_isSome_iff_mem]
  cases m.find k <;> simp

theorem InodeMap.nodupKeys_orInsert {m : InodeMap} (h : m.NodupKeys)
    (k : InodeKey) (v : Nat) : (m.orInsert k v).NodupKeys := by
  unfold InodeMap.orInsert
  cases hm : m.find k with
  | some w => exact h
  | none =>
    unfold InodeMap.NodupKeys at *
    rw [List.map_append, List.nodup_append]
    refine ⟨h, by simp, ?_⟩
    intro a ha hb
    simp only [List.map_cons, List.map_nil, List.mem_singleton] at hb
    subst hb
    exact (InodeMap.find_eq_none_iff m _).mp hm ha

theorem InodeMap.nodupKeys_mergeInto {base : InodeMap} (h : base.NodupKeys)
    (other : InodeMap) : (base.mergeInto other).NodupKeys := by
  induction other generalizing base with
  | nil => exact h
  | cons kv rest ih =>
    simp only [InodeMap.mergeInto, List.foldl_cons] at *
    exact ih (InodeMap.nodupKeys_orInsert h kv.1 kv.2)

theorem InodeMap.mem_orInsert {m : InodeMap} {k : InodeKey} {v : Nat} {kv : InodeKey × Nat}
    (h : kv ∈ m.orInsert k v) : kv ∈ m ∨ kv = (k, v) := by
  unfold InodeMap.orInsert at h
  cases hm : m.find k with
  | some w => rw [hm] at h; exact Or.inl h
  | none =>
    rw [hm] at h
    rcases List.mem_append.mp h with h' | h'
    · exact Or.inl h'
    · simp only [List.mem_singleton] at h'
      exact Or.inr h'

theorem InodeMap.mem_mergeInto {base other : InodeMap} {kv : InodeKey × Nat}
    (h : kv ∈ base.mergeInto other) : kv ∈ base ∨ kv ∈ other := by
  induction other generalizing base with
  | nil => exact Or.inl h
  | cons x rest ih =>
    simp only [InodeMap.mergeInto, List.foldl_cons] at h
    rcases ih h with h' | h'
    · rcases InodeMap.mem_orInsert h' with h'' | h''
      · exact Or.inl h''
      · exact Or.inr (by simp [h''])
    · exact Or.inr (List.mem_cons_of_mem _ h')

/-- All entries of a map agree with a global inode-size assignment `v`
(on a consistent filesystem every link of an inode reports the same size). -/
def InodeMap.ConsistentWith (v : InodeKey → Nat) (m : InodeMap) : Prop :=
  ∀ kv ∈ m, kv.2 = v kv.1

instance (v : InodeKey → Nat) (m : InodeMap) : Decidable (m.ConsistentWith v) := by
  unfold InodeMap.ConsistentWith
  infer_instance

theorem InodeMap.consistentWith_mergeInto {v : InodeKey → Nat} {base other : InodeMap}
    (hb : base.ConsistentWith v) (ho : other.ConsistentWith v) :
    (base.mergeInto other).ConsistentWith v := by
  intro kv hkv
  rcases InodeMap.mem_mergeInto hkv with h | h
  · exact hb kv h
  · exact ho kv h

/-- On a consistent map with distinct keys, the value sum is the sum of `v`
over the key set. -/
theorem InodeMap.valuesSum_eq_keys_sum {v : InodeKey → Nat} {m : InodeMap}
    (hc : m.ConsistentWith v) (hn : m.NodupKeys) :
    m.valuesSum = ∑ k ∈ (m.map Prod.fst).toFinset, v k := by
  unfold InodeMap.valuesSum
  rw [List.sum_toFinset _ hn, List.map_map]
  clear hn
  induction m with
  | nil => simp
  | cons kv rest ih =>
    simp only [List.map_cons, List.sum_cons, Function.comp]
    rw [hc kv (by simp), ih (fun x hx => hc x (List.mem_cons_of_mem _ hx))]

/-- Key sets grow under first-seen-wins merging, so (on a consistent
filesystem) so do value sums. -/
theorem InodeMap.valuesSum_le_of_keys_subset {v : InodeKey → Nat} {m₁ m₂ : InodeMap}
    (hc₁ : m₁.ConsistentWith v) (hn₁ : m₁.NodupKeys)
    (hc₂ : m₂.ConsistentWith v) (hn₂ : m₂.NodupKeys)
    (hsub : ∀ k, (m₁.find k).isSome → (m₂.find k).isSome) :
    m₁.valuesSum ≤ m₂.valuesSum := by
  rw [InodeMap.valuesSum_eq_keys_sum hc₁ hn₁, InodeMap.valuesSum_eq_keys_sum hc₂ hn₂]
  apply Finset.sum_le_sum_of_subset
  intro k hk
  simp only [List.mem_toFinset] at *
  rw [← InodeMap.find_isSome_iff_mem] at *
  exact hsub k hk

-- ───────────────────────── platform helpers (src/core/size.rs) ─────────────

/-- The stat fields the engine reads from `std::fs::Metadata`. -/
structure FileMeta where
  size : Nat
  nlink : Nat
  dev : Nat
  ino : Nat
deriving DecidableEq, Repr

/-- `classify_file` (src/core/size.rs): `(apparent_size, Some((dev, ino)))`
for hard-linked files, `(apparent_size, None)` for unique files (`nlink ≤ 1`)
or when dedup is disabled. -/
def classify_file (meta : FileMeta) (dedup : Bool) : Nat × Option InodeKey :=
  if !dedup then (meta.size, none)
  else if meta.nlink ≤ 1 then (meta.size, none)
  else (meta.size, some (meta.dev, meta.ino))

/-- `is_same_device` (src/core/size.rs): device-id equality. -/
def is_same_device (dev root_dev : Nat) : Bool := dev == root_dev

-- ───────────────────────── filesystem model ─────────────

/-- One directory entry as the walkers observe it.  Fallible syscalls are
`Option`s: `meta = none` means `entry.metadata()` failed, `dev = none` means
`std::fs::metadata(&path)` failed, `listing = none` means `read_dir` on this
directory fails, `len = none` means `symlink_metadata` failed.  `otherE`
covers entries whose `file_type()` errors or is none of file/dir/symlink
(all skipped identically by the code). -/
inductive FsEntry where
  | fileE (path : Nat) (meta : Option FileMeta)
  | dirE (path : Nat) (dev : Option Nat) (listing : Option (List FsEntry))
  | symlinkE (path : Nat) (len : Option Nat)
  | otherE (path : Nat)
deriving Repr

mutual

/-- Size of one entry, for walker termination. -/
def entSize : FsEntry → Nat
  | .fileE _ _ => 1
  | .symlinkE _ _ => 1
  | .otherE _ => 1
  | .dirE _ _ none => 2
  | .dirE _ _ (some es) => 2 + listingSize es

/-- Total size of a listing. -/
def listingSize : List FsEntry → Nat
  | [] => 0
  | e :: es => entSize e + listingSize es

end

/-- Size of a pending stack element (a `read_dir` result). -/
def osize : Option (List FsEntry) → Nat
  | none => 1
  | some es => 1 + listingSize es

/-- Decreasing measure for the explicit-stack walker loop. -/
def stackMeasure (l : List (Option (List FsEntry))) : Nat := (l.map osize).sum

theorem osize_lt_entSize_dirE (p : Nat) (dev : Option Nat) (l : Option (List FsEntry)) :
    osize l < entSize (.dirE p dev l) := by
  cases l <;> simp [osize, entSize]

-- ───────────────────────── recursive subtree walker ─────────────
-- `recursive_dir_size` (src/core/size.rs): explicit-stack depth-first walk.

/-- Body of the `for entry in entries.flatten()` loop of `recursive_dir_size`.
The accumulator is `(unique_sum, hardlinks, dirs-pushed-during-this-listing)`;
pushes append on the right, matching `Vec::push`. -/
def walkStep (dedup ofs : Bool) (rootDev : Nat)
    (acc : Nat × InodeMap × List (Option (List FsEntry))) :
    FsEntry → Nat × InodeMap × List (Option (List FsEntry))
  | .dirE _ dev listing =>
    if ofs then
      match dev with
      | some d =>
        if is_same_device d rootDev then (acc.1, acc.2.1, acc.2.2 ++ [listing])
        else acc
      | none => acc
    else (acc.1, acc.2.1, acc.2.2 ++ [listing])
  | .fileE _ meta =>
    match meta with
    | some m =>
      let r := classify_file m dedup
      match r.2 with
      | none => (satAdd acc.1 r.1, acc.2.1, acc.2.2)
      | some key => (acc.1, acc.2.1.orInsert key r.1, acc.2.2)
    | none => acc
  | .symlinkE _ len =>
    match len with
    | some l => (satAdd acc.1 l, acc.2.1, acc.2.2)
    | none => acc
  | .otherE _ => acc

theorem walkStep_pushed_le (dedup ofs : Bool) (rootDev : Nat)
    (acc : Nat × InodeMap × List (Option (List FsEntry))) (e : FsEntry) :
    (((walkStep dedup ofs rootDev acc e).2.2).map osize).sum ≤
      ((acc.2.2.map osize).sum) + entSize e := by
  cases e with
  | dirE p dev listing =>
    have hlt := osize_lt_entSize_dirE p dev listing
    by_cases hofs : ofs = true
    · cases dev with
      | none => simp [walkStep, hofs]
      | some d =>
        by_cases hd : is_same_device d rootDev = true
        · simp [walkStep, hofs, hd]; omega
        · simp only [walkStep, hofs, if_true, hd]
          simp
    · simp only [Bool.not_eq_true] at hofs
      simp [walkStep, hofs]; omega
  | fileE p meta =>
    cases meta with
    | none => simp [walkStep]
    | some m =>
      cases hc : (classify_file m dedup).2 <;> simp [walkStep, hc, entSize]
  | symlinkE p len => cases len <;> simp [walkStep, entSize]
  | otherE p => simp [walkStep, entSize]

theorem walkFold_pushed_le (dedup ofs : Bool) (rootDev : Nat)
    (es : List FsEntry) (acc : Nat × InodeMap × List (Option (List FsEntry))) :
    (((es.foldl (walkStep dedup ofs rootDev) acc).2.2).map osize).sum ≤
      ((acc.2.2.map osize).sum) + listingSize es := by
  induction es generalizing acc with
  | nil => simp [listingSize]
  | cons e rest ih =>
    simp only [List.foldl_cons, listingSize]
    calc (((rest.foldl (walkStep dedup ofs rootDev)
              (walkStep dedup ofs rootDev acc e)).2.2).map osize).sum
        ≤ (((walkStep dedup ofs rootDev acc e).2.2).map osize).sum + listingSize rest :=
          ih _
      _ ≤ ((acc.2.2.map osize).sum) + entSize e + listingSize rest := by
          have := walkStep_pushed_le dedup ofs rootDev acc e
          omega
      _ = ((acc.2.2.map osize).sum) + (entSize e + listingSize rest) := by omega

/-- The `while let Some(current) = stack.pop()` loop of `recursive_dir_size`.
`Vec::pop` takes the most recently pushed directory, so the freshly pushed
listing options are reversed onto the front of the list-stack. -/
def walkLoop (dedup ofs : Bool) (rootDev : Nat) (cancel : Bool) :
    List (Option (List FsEntry)) → Nat → InodeMap → Nat × InodeMap
  | [], us, hl => (us, hl)
  | cur :: stack, us, hl =>
    if cancel then (us, hl)
    else
      match cur with
      | none => walkLoop dedup ofs rootDev cancel stack us hl
      | some es =>
        let r := es.foldl (walkStep dedup ofs rootDev) (us, hl, [])
        walkLoop dedup ofs rootDev cancel (r.2.2.reverse ++ stack) r.1 r.2.1
termination_by stack _ _ => stackMeasure stack
decreasing_by
  · simp [stackMeasure, osize]
  · simp only [stackMeasure, List.map_append, List.sum_append, List.map_cons,
      List.sum_cons, List.map_reverse, List.sum_reverse, osize]
    have h := walkFold_pushed_le dedup ofs rootDev es (us, hl, [])
    simp at h
    omega

/-- `recursive_dir_size` (src/core/size.rs).  The walk root's `read_dir`
result is passed as data (`dir`); the initial stack is `vec![dir]`. -/
def recursive_dir_size (dir : Option (List FsEntry)) (cancel : Bool)
    (dedup : Bool) (one_file_system : Bool) (root_dev : Nat) : Nat × InodeMap :=
  walkLoop dedup one_file_system root_dev cancel [dir] 0 []

-- ───────────────────────── worker enumeration (src/app/size_runtime.rs) ────

/-- `SizeUpdate` messages sent from workers to the orchestrator. -/
inductive SizeUpdateM where
  | File (path : Nat) (size : Nat)
  | DirLocalDone (dir : Nat) (unique_sum : Nat) (hardlinks : InodeMap)
  | WorkerDone
deriving Repr

/-- `WorkerCtx` (src/app/size_runtime.rs): shared read-only worker context. -/
structure WorkerCtx where
  tree_dirs : List Nat
  dedup_hard_links : Bool
  one_file_system : Bool
  root_dev : Nat

/-- Body of the worker's `for entry in entries.flatten()` loop: one entry of
the single-level enumeration of a tree directory.  The accumulator is
`(unique_sum, hardlinks, messages-sent-so-far)`. -/
def workerStep (ctx : WorkerCtx) (cancel : Bool)
    (acc : Nat × InodeMap × List SizeUpdateM) :
    FsEntry → Nat × InodeMap × List SizeUpdateM
  | .fileE path meta =>
    match meta with
    | some m =>
      let msgs := acc.2.2 ++ [.File path m.size]
      let r := classify_file m ctx.dedup_hard_links
      match r.2 with
      | none => (satAdd acc.1 r.1, acc.2.1, msgs)
      | some key => (acc.1, acc.2.1.orInsert key r.1, msgs)
    | none => acc
  | .dirE path dev listing =>
    if ctx.tree_dirs.contains path then
      acc
    else if ctx.one_file_system then
      match dev with
      | some d =>
        if is_same_device d ctx.root_dev then
          let r := recursive_dir_size listing cancel ctx.dedup_hard_links true ctx.root_dev
          (satAdd acc.1 r.1, acc.2.1.mergeInto r.2, acc.2.2)
        else acc
      | none => acc
    else
      let r := recursive_dir_size listing cancel ctx.dedup_hard_links false 0
      (satAdd acc.1 r.1, acc.2.1.mergeInto r.2, acc.2.2)
  | .symlinkE path len =>
    match len with
    | some l => (satAdd acc.1 l, acc.2.1, acc.2.2 ++ [.File path l])
    | none => acc
  | .otherE _ => acc

/-- One popped job of the worker loop (src/app/size_runtime.rs): enumerate the
immediate entries of `dir` (`read_dir` result given as `listing`) and return
the messages sent for this job, ending with the unconditional `DirLocalDone`.
On `read_dir` failure an empty `LocalResult` is reported.  A set cancel flag
makes the entry loop break before processing anything. -/
def processJob (ctx : WorkerCtx) (cancel : Bool) (dir : Nat)
    (listing : Option (List FsEntry)) : List SizeUpdateM :=
  match listing with
  | none => [.DirLocalDone dir 0 []]
  | some entries =>
    let r := if cancel then ((0 : Nat), ([] : InodeMap), ([] : List SizeUpdateM))
             else entries.foldl (workerStep ctx cancel) (0, [], [])
    r.2.2 ++ [.DirLocalDone dir r.1 r.2.1]

-- ───────────────────────── orchestrator state ─────────────

/-- `DirLocalResult` (src/core/size.rs): a directory's own-level result. -/
structure DirLocalResult where
  unique_sum : Nat
  hardlinks : InodeMap
deriving DecidableEq, Repr

/-- The slice of `AppState` (src/app/state.rs) the size engine touches:
the generation counter and the three long-lived caches (`EngineCaches`). -/
structure AppStateM where
  size_compute_generation : Nat
  file_sizes : Nat → Option Nat
  dir_local_sums : Nat → Option DirLocalResult
  dir_sizes : Nat → Option Nat

/-- `SizeComputeState` (src/app/size_runtime.rs): one computation. -/
structure SizeComputeState where
  generation : Nat
  remaining_workers : Nat
  dirs : List Nat
  parent_dir : Nat → Option (Option Nat)
  pending_children : Nat → Option Nat
  children_unique : Nat → Option Nat
  children_hardlinks : Nat → Option InodeMap
  local_done : Nat → Option DirLocalResult
  finished : Nat → Bool
  cancel : Bool

/-- `HashMap::insert` / `HashMap::remove` on a function-map. -/
def upd {α : Type} (m : Nat → Option α) (k : Nat) (v : Option α) : Nat → Option α :=
  fun p => if p = k then v else m p

/-- `HashSet::insert` on a function-set. -/
def updB (s : Nat → Bool) (k : Nat) : Nat → Bool :=
  fun p => if p = k then true else s p

theorem upd_same {α : Type} (m : Nat → Option α) (k : Nat) (v : Option α) :
    upd m k v k = v := by simp [upd]

theorem upd_other {α : Type} (m : Nat → Option α) (k : Nat) (v : Option α)
    {p : Nat} (h : p ≠ k) : upd m k v p = m p := by simp [upd, h]

theorem updB_same (s : Nat → Bool) (k : Nat) : updB s k k = true := by simp [updB]

theorem updB_other (s : Nat → Bool) (k : Nat) {p : Nat} (h : p ≠ k) :
    updB s k p = s p := by simp [updB, h]

-- ───────────────────────── apply_size_update ─────────────

/-- `apply_size_update` (src/app/size_runtime.rs; identical in src/main.rs).
Returns the new `AppState` slice, the new `Option<SizeComputeState>`, and the
`bool` telling the event loop whether `finalize_ready_dirs` must run. -/
def apply_size_update (state : AppStateM) (size_compute : Option SizeComputeState)
    (generation : Nat) (update : SizeUpdateM) :
    AppStateM × Option SizeComputeState × Bool :=
  if generation ≠ state.size_compute_generation then
    (state, size_compute, false)
  else
    match size_compute with
    | none => (state, none, false)
    | some compute =>
      if compute.generation ≠ generation then
        (state, some compute, false)
      else
        match update with
        | .File path size =>
          ({ state with file_sizes := upd state.file_sizes path (some size) },
           some compute, false)
        | .DirLocalDone dir unique_sum hardlinks =>
          let result : DirLocalResult := ⟨unique_sum, hardlinks⟩
          ({ state with dir_local_sums := upd state.dir_local_sums dir (some result) },
           some { compute with local_done := upd compute.local_done dir (some result) },
           true)
        | .WorkerDone =>
          (state, some { compute with remaining_workers := compute.remaining_workers - 1 },
           false)

-- ───────────────────────── start_size_computation ─────────────

/-- The fields of a `TreeNode` (src/core/tree.rs) that
`start_size_computation` reads: path, kind, depth, parent index, child
indices. -/
structure TreeNodeM where
  path : Nat
  is_dir : Bool
  depth : Nat
  parent : Option Nat
  children : List Nat

/-- The local accumulators built by the `for node in &state.tree.nodes` loop
of `start_size_computation`. -/
structure StartAcc where
  dirs : List Nat
  dir_depth : Nat → Option Nat
  parent_dir : Nat → Option (Option Nat)
  pending_children : Nat → Option Nat
  children_unique : Nat → Option Nat
  children_hardlinks : Nat → Option InodeMap
  local_done : Nat → Option DirLocalResult
  jobs : List Nat

/-- `node.parent.and_then(...)`: the path of the parent node when it is a
directory.  (The arena invariant keeps parent indices in bounds; an
out-of-bounds index yields `none` here where Rust would panic.) -/
def parentDirPath (nodes : List TreeNodeM) (node : TreeNodeM) : Option Nat :=
  node.parent.bind fun pid =>
    (nodes.get? pid).bind fun p => if p.is_dir then some p.path else none

/-- `node.children.iter().filter(|cid| nodes[cid].is_dir).count()`. -/
def childDirCount (nodes : List TreeNodeM) (node : TreeNodeM) : Nat :=
  node.children.countP fun cid =>
    match nodes.get? cid with
    | some c => c.is_dir
    | none => false

/-- One iteration of the node loop of `start_size_computation`: skip
non-directories, register the directory in every map, then either seed
`local_done` from the cache or push the path onto the job queue. -/
def startStep (nodes : List TreeNodeM) (cache : Nat → Option DirLocalResult)
    (acc : StartAcc) (node : TreeNodeM) : StartAcc :=
  if !node.is_dir then acc
  else
    let p := node.path
    let acc1 : StartAcc := { acc with
      dirs := acc.dirs ++ [p]
      dir_depth := upd acc.dir_depth p (some node.depth)
      parent_dir := upd acc.parent_dir p (some (parentDirPath nodes node))
      pending_children := upd acc.pending_children p (some (childDirCount nodes node))
      children_unique := upd acc.children_unique p (some 0)
      children_hardlinks := upd acc.children_hardlinks p (some ([] : InodeMap)) }
    match cache p with
    | some cached => { acc1 with local_done := upd acc1.local_done p (some cached) }
    | none => { acc1 with jobs := acc1.jobs ++ [p] }

/-- The empty accumulators. -/
def initStartAcc : StartAcc :=
  ⟨[], fun _ => none, fun _ => none, fun _ => none, fun _ => none,
   fun _ => none, fun _ => none, []⟩

/-- The comparator of `dirs.sort_by(|a, b| db.cmp(&da))`: deepest first. -/
def deeperFirst (dd : Nat → Option Nat) (a b : Nat) : Bool :=
  decide (((dd b).getD 0) ≤ ((dd a).getD 0))

/-- `start_size_computation` (src/app/size_runtime.rs / src/main.rs): bump the
generation (u64 `wrapping_add`), build the per-directory maps from the tree,
seed `local_done` from `dir_local_sums`, queue uncached directories as jobs,
and sort the dir list deepest-first (`sort_by` is stable, as is `mergeSort`).
Worker threads only consume the returned job queue, so they are not part of
the state; `max_threads` stands for `available_parallelism().max(1)`.
The engine's `dir_sizes` is deliberately not cleared. -/
def start_size_computation (nodes : List TreeNodeM) (state : AppStateM)
    (max_threads : Nat) : AppStateM × SizeComputeState × List Nat :=
  let generation := (state.size_compute_generation + 1) % u64SIZE
  let state1 := { state with size_compute_generation := generation }
  let acc := nodes.foldl (startStep nodes state.dir_local_sums) initStartAcc
  let dirs := acc.dirs.mergeSort (deeperFirst acc.dir_depth)
  let job_count := acc.jobs.length
  let worker_count := min max_threads (max job_count 1)
  (state1,
   { generation := generation
     remaining_workers := if 0 < job_count then worker_count else 0
     dirs := dirs
     parent_dir := acc.parent_dir
     pending_children := acc.pending_children
     children_unique := acc.children_unique
     children_hardlinks := acc.children_hardlinks
     local_done := acc.local_done
     finished := fun _ => false
     cancel := false },
   acc.jobs)

-- ───────────────────────── finalize_ready_dirs ─────────────

/-- The body of the `for i in 0..compute.dirs.len()` loop of
`finalize_ready_dirs` for one directory: skip unless ready, otherwise take
the local result and the children accumulators, merge hard-link maps with the
larger map as the base, publish the total into `dir_sizes`, mark finished and
propagate into the parent's accumulators. -/
def finalizeStep (acc : AppStateM × SizeComputeState) (dir : Nat) :
    AppStateM × SizeComputeState :=
  let state := acc.1
  let compute := acc.2
  if compute.finished dir then acc
  else
    match compute.local_done dir with
    | none => acc
    | some localRes =>
      if (compute.pending_children dir).getD 0 ≠ 0 then acc
      else
        let compute1 := { compute with local_done := upd compute.local_done dir none }
        let children_unique := (compute1.children_unique dir).getD 0
        let compute2 := { compute1 with children_unique := upd compute1.children_unique dir none }
        let children_hl := (compute2.children_hardlinks dir).getD []
        let compute3 := { compute2 with children_hardlinks := upd compute2.children_hardlinks dir none }
        let total_unique := satAdd localRes.unique_sum children_unique
        let merged_hardlinks :=
          if children_hl.length ≤ localRes.hardlinks.length then
            localRes.hardlinks.mergeInto children_hl
          else
            children_hl.mergeInto localRes.hardlinks
        let hardlink_bytes := hardlinkBytes merged_hardlinks
        let total := satAdd total_unique hardlink_bytes
        let state1 := { state with dir_sizes := upd state.dir_sizes dir (some total) }
        let compute4 := { compute3 with finished := updB compute3.finished dir }
        match compute4.parent_dir dir with
        | some (some parent) =>
          let compute5 :=
            match compute4.pending_children parent with
            | some remaining =>
              { compute4 with pending_children := upd compute4.pending_children parent (some (remaining - 1)) }
            | none => compute4
          let compute6 :=
            match compute5.children_unique parent with
            | some sum =>
              { compute5 with children_unique := upd compute5.children_unique parent (some (satAdd sum total_unique)) }
            | none => compute5
          let parent_hl := (compute6.children_hardlinks parent).getD []
          let compute7 :=
            if parent_hl.isEmpty then
              { compute6 with children_hardlinks := upd compute6.children_hardlinks parent (some merged_hardlinks) }
            else
              { compute6 with children_hardlinks := upd compute6.children_hardlinks parent (some (parent_hl.mergeInto merged_hardlinks)) }
          (state1, compute7)
        | _ => (state1, compute4)

/-- `finalize_ready_dirs` (src/app/size_runtime.rs; identical in
src/main.rs): one forward pass over the depth-sorted dir list.  The loop
reads `compute.dirs[i]` but never modifies `dirs`, so folding over the
initial list is the loop itself. -/
def finalize_ready_dirs (state : AppStateM) (compute : SizeComputeState) :
    AppStateM × SizeComputeState :=
  compute.dirs.foldl finalizeStep (state, compute)

-- ───────────────────────── cascade step lemmas ─────────────

/-- Readiness of a directory in the cascade pass: not yet finished, local
result present, no pending children. -/
def Ready (compute : SizeComputeState) (dir : Nat) : Prop :=
  compute.finished dir = false ∧
  (compute.local_done dir).isSome ∧
  (compute.pending_children dir).getD 0 = 0

instance (compute : SizeComputeState) (dir : Nat) : Decidable (Ready compute dir) := by
  unfold Ready; infer_instance

/-- A non-ready directory is skipped: the loop body returns its input
unchanged. -/
theorem finalizeStep_of_not_ready {state : AppStateM} {compute : SizeComputeState}
    {dir : Nat} (h : ¬ Ready compute dir) :
    finalizeStep (state, compute) dir = (state, compute) := by
  unfold Ready at h
  push_neg at h
  by_cases hf : compute.finished dir = true
  · simp [finalizeStep, hf]
  · simp only [Bool.not_eq_true] at hf
    cases hl : compute.local_done dir with
    | none => simp [finalizeStep, hf, hl]
    | some r =>
      have hp : (compute.pending_children dir).getD 0 ≠ 0 :=
        h hf (by rw [hl]; rfl)
      simp [finalizeStep, hf, hl, hp]

/-- `total_unique` of a directory at the moment it is finalised. -/
def readyTotalUnique (compute : SizeComputeState) (dir : Nat)
    (localRes : DirLocalResult) : Nat :=
  satAdd localRes.unique_sum ((compute.children_unique dir).getD 0)

/-- `merged_hardlinks` of a directory at the moment it is finalised: the
larger of the local and accumulated-children maps is the merge base. -/
def readyMerged (compute : SizeComputeState) (dir : Nat)
    (localRes : DirLocalResult) : InodeMap :=
  let children_hl := (compute.children_hardlinks dir).getD []
  if children_hl.length ≤ localRes.hardlinks.length then
    localRes.hardlinks.mergeInto children_hl
  else
    children_hl.mergeInto localRes.hardlinks

/-- The total published for a directory at the moment it is finalised. -/
def readyTotal (compute : SizeComputeState) (dir : Nat)
    (localRes : DirLocalResult) : Nat :=
  satAdd (readyTotalUnique compute dir localRes)
    (hardlinkBytes (readyMerged compute dir localRes))

/-- The explicit result of finalising a ready directory (the else-branch of
the loop body, with the intermediate states flattened). -/
def finalizeReady (state : AppStateM) (compute : SizeComputeState) (dir : Nat)
    (localRes : DirLocalResult) : AppStateM × SizeComputeState :=
  let total_unique := readyTotalUnique compute dir localRes
  let merged_hardlinks := readyMerged compute dir localRes
  let total := readyTotal compute dir localRes
  let state1 := { state with dir_sizes := upd state.dir_sizes dir (some total) }
  let compute4 := { compute with
    local_done := upd compute.local_done dir none
    children_unique := upd compute.children_unique dir none
    children_hardlinks := upd compute.children_hardlinks dir none
    finished := updB compute.finished dir }
  match compute4.parent_dir dir with
  | some (some parent) =>
    let compute5 :=
      match compute4.pending_children parent with
      | some remaining =>
        { compute4 with pending_children := upd compute4.pending_children parent (some (remaining - 1)) }
      | none => compute4
    let compute6 :=
      match compute5.children_unique parent with
      | some sum =>
        { compute5 with children_unique := upd compute5.children_unique parent (some (satAdd sum total_unique)) }
      | none => compute5
    let parent_hl := (compute6.children_hardlinks parent).getD []
    let compute7 :=
      if parent_hl.isEmpty then
        { compute6 with children_hardlinks := upd compute6.children_hardlinks parent (some merged_hardlinks) }
      else
        { compute6 with children_hardlinks := upd compute6.children_hardlinks parent (some (parent_hl.mergeInto merged_hardlinks)) }
    (state1, compute7)
  | _ => (state1, compute4)

/-- A ready directory is finalised: the loop body computes `finalizeReady`. -/
theorem finalizeStep_of_ready {state : AppStateM} {compute : SizeComputeState}
    {dir : Nat} {localRes : DirLocalResult}
    (hf : compute.finished dir = false)
    (hl : compute.local_done dir = some localRes)
    (hp : (compute.pending_children dir).getD 0 = 0) :
    finalizeStep (state, compute) dir = finalizeReady state compute dir localRes := by
  simp only [finalizeStep, finalizeReady, readyTotal, readyTotalUnique, readyMerged,
    hf, hl, hp, ne_eq, Bool.false_eq_true, if_false, not_true_eq_false, not_not]

-- Field characterisations of one finalisation step.

theorem finalizeReady_fst (state : AppStateM) (compute : SizeComputeState)
    (dir : Nat) (localRes : DirLocalResult) :
    (finalizeReady state compute dir localRes).1 =
      { state with dir_sizes := upd state.dir_sizes dir (some (readyTotal compute dir localRes)) } := by
  unfold finalizeReady
  rcases hpar : compute.parent_dir dir with _ | q
  · simp [hpar]
  · rcases q with _ | p
    · simp [hpar]
    · simp [hpar]

theorem finalizeReady_dirs (state : AppStateM) (compute : SizeComputeState)
    (dir : Nat) (localRes : DirLocalResult) :
    (finalizeReady state compute dir localRes).2.dirs = compute.dirs := by
  unfold finalizeReady
  rcases hpar : compute.parent_dir dir with _ | q
  · simp [hpar]
  · rcases q with _ | p
    · simp [hpar]
    · simp only [hpar]
      rcases hpc : compute.pending_children p with _ | n <;>
        rcases hcu : (upd compute.children_unique dir none) p with _ | s <;>
          simp [hpar, hpc, hcu] <;> split <;> simp

theorem finalizeReady_parent_dir (state : AppStateM) (compute : SizeComputeState)
    (dir : Nat) (localRes : DirLocalResult) :
    (finalizeReady state compute dir localRes).2.parent_dir = compute.parent_dir := by
  unfold finalizeReady
  rcases hpar : compute.parent_dir dir with _ | q
  · simp [hpar]
  · rcases q with _ | p
    · simp [hpar]
    · simp only [hpar]
      rcases hpc : compute.pending_children p with _ | n <;>
        rcases hcu : (upd compute.children_unique dir none) p with _ | s <;>
          simp [hpar, hpc, hcu] <;> split <;> simp

theorem finalizeReady_finished (state : AppStateM) (compute : SizeComputeState)
    (dir : Nat) (localRes : DirLocalResult) :
    (finalizeReady state compute dir localRes).2.finished = updB compute.finished dir := by
  unfold finalizeReady
  rcases hpar : compute.parent_dir dir with _ | q
  · simp [hpar]
  · rcases q with _ | p
    · simp [hpar]
    · simp only [hpar]
      rcases hpc : compute.pending_children p with _ | n <;>
        rcases hcu : (upd compute.children_unique dir none) p with _ | s <;>
          simp [hpar, hpc, hcu] <;> split <;> simp

theorem finalizeReady_local_done (state : AppStateM) (compute : SizeComputeState)
    (dir : Nat) (localRes : DirLocalResult) :
    (finalizeReady state compute dir localRes).2.local_done = upd compute.local_done dir none := by
  unfold finalizeReady
  rcases hpar : compute.parent_dir dir with _ | q
  · simp [hpar]
  · rcases q with _ | p
    · simp [hpar]
    · simp only [hpar]
      rcases hpc : compute.pending_children p with _ | n <;>
        rcases hcu : (upd compute.children_unique dir none) p with _ | s <;>
          simp [hpar, hpc, hcu] <;> split <;> simp

theorem finalizeReady_generation (state : AppStateM) (compute : SizeComputeState)
    (dir : Nat) (localRes : DirLocalResult) :
    (finalizeReady state compute dir localRes).2.generation = compute.generation := by
  unfold finalizeReady
  rcases hpar : compute.parent_dir dir with _ | q
  · simp [hpar]
  · rcases q with _ | p
    · simp [hpar]
    · simp only [hpar]
      rcases hpc : compute.pending_children p with _ | n <;>
        rcases hcu : (upd compute.children_unique dir none) p with _ | s <;>
          simp [hpar, hpc, hcu] <;> split <;> simp

theorem finalizeReady_pending_children (state : AppStateM) (compute : SizeComputeState)
    (dir : Nat) (localRes : DirLocalResult) (q : Nat) :
    (finalizeReady state compute dir localRes).2.pending_children q =
      match compute.parent_dir dir with
      | some (some p) =>
        if q = p then
          match compute.pending_children p with
          | some n => some (n - 1)
          | none => compute.pending_children q
        else compute.pending_children q
      | _ => compute.pending_children q := by
  unfold finalizeReady
  rcases hpar : compute.parent_dir dir with _ | qq
  · simp [hpar]
  · rcases qq with _ | p
    · simp [hpar]
    · simp only [hpar]
      rcases hpc : compute.pending_children p with _ | n <;>
        rcases hcu : (upd compute.children_unique dir none) p with _ | s <;>
          by_cases hq : q = p <;>
            simp only [hpar, hpc, hcu, hq] <;>
              (try split) <;> simp [upd, hpc, hq]

theorem finalizeReady_children_unique (state : AppStateM) (compute : SizeComputeState)
    (dir : Nat) (localRes : DirLocalResult) (q : Nat) :
    (finalizeReady state compute dir localRes).2.children_unique q =
      match compute.parent_dir dir with
      | some (some p) =>
        if q = p then
          match (upd compute.children_unique dir none) p with
          | some s => some (satAdd s (readyTotalUnique compute dir localRes))
          | none => (upd compute.children_unique dir none) q
        else (upd compute.children_unique dir none) q
      | _ => (upd compute.children_unique dir none) q := by
  unfold finalizeReady
  rcases hpar : compute.parent_dir dir with _ | qq
  · simp [hpar]
  · rcases qq with _ | p
    · simp [hpar]
    · simp only [hpar]
      rcases hpc : compute.pending_children p with _ | n <;>
        rcases hcu : (upd compute.children_unique dir none) p with _ | s <;>
          by_cases hq : q = p <;>
            simp only [hpar, hpc, hcu, hq] <;>
              (try split) <;> simp [upd, hcu, hq] <;>
                (intro hd; simpa [upd, hd] using hcu)

theorem finalizeReady_children_hardlinks (state : AppStateM) (compute : SizeComputeState)
    (dir : Nat) (localRes : DirLocalResult) (q : Nat) :
    (finalizeReady state compute dir localRes).2.children_hardlinks q =
      match compute.parent_dir dir with
      | some (some p) =>
        if q = p then
          some (if (((upd compute.children_hardlinks dir none) p).getD []).isEmpty
                then readyMerged compute dir localRes
                else (((upd compute.children_hardlinks dir none) p).getD []).mergeInto
                       (readyMerged compute dir localRes))
        else (upd compute.children_hardlinks dir none) q
      | _ => (upd compute.children_hardlinks dir none) q := by
  unfold finalizeReady
  rcases hpar : compute.parent_dir dir with _ | qq
  · simp [hpar]
  · rcases qq with _ | p
    · simp [hpar]
    · simp only [hpar]
      rcases hpc : compute.pending_children p with _ | n <;>
        rcases hcu : (upd compute.children_unique dir none) p with _ | s <;>
          by_cases hq : q = p <;>
            simp only [hpar, hpc, hcu, hq] <;>
              (try split) <;> simp [upd, hcu, hq] <;>
                (intro hd; simpa [upd, hd] using hcu)

/-- Frame facts of one loop iteration (ready or not): the dir list, the
parent map, the generation, and the caches other than `dir_sizes` are never
touched by `finalize_ready_dirs`. -/
theorem finalizeStep_frame (state : AppStateM) (compute : SizeComputeState) (d : Nat) :
    (finalizeStep (state, compute) d).2.dirs = compute.dirs ∧
    (finalizeStep (state, compute) d).2.parent_dir = compute.parent_dir ∧
    (finalizeStep (state, compute) d).2.generation = compute.generation ∧
    (finalizeStep (state, compute) d).1.file_sizes = state.file_sizes ∧
    (finalizeStep (state, compute) d).1.dir_local_sums = state.dir_local_sums ∧
    (finalizeStep (state, compute) d).1.size_compute_generation = state.size_compute_generation := by
  by_cases h : Ready compute d
  · obtain ⟨hf, hs, hp⟩ := h
    obtain ⟨r, hr⟩ := Option.isSome_iff_exists.mp hs
    rw [finalizeStep_of_ready hf hr hp]
    refine ⟨finalizeReady_dirs _ _ _ _, finalizeReady_parent_dir _ _ _ _,
      finalizeReady_generation _ _ _ _, ?_, ?_, ?_⟩ <;>
      rw [finalizeReady_fst]
  · rw [finalizeStep_of_not_ready h]
    exact ⟨rfl, rfl, rfl, rfl, rfl, rfl⟩

/-- Frame facts propagated through a whole pass (any sub-list of dirs). -/
theorem finalizeFold_frame (l : List Nat) (state : AppStateM) (compute : SizeComputeState) :
    (l.foldl finalizeStep (state, compute)).2.dirs = compute.dirs ∧
    (l.foldl finalizeStep (state, compute)).2.parent_dir = compute.parent_dir ∧
    (l.foldl finalizeStep (state, compute)).2.generation = compute.generation ∧
    (l.foldl finalizeStep (state, compute)).1.file_sizes = state.file_sizes ∧
    (l.foldl finalizeStep (state, compute)).1.dir_local_sums = state.dir_local_sums ∧
    (l.foldl finalizeStep (state, compute)).1.size_compute_generation = state.size_compute_generation := by
  induction l generalizing state compute with
  | nil => exact ⟨rfl, rfl, rfl, rfl, rfl, rfl⟩
  | cons h t ih =>
    simp only [List.foldl_cons]
    obtain ⟨h1, h2, h3, h4, h5, h6⟩ := finalizeStep_frame state compute h
    rcases hstep : finalizeStep (state, compute) h with ⟨st1, c1⟩
    rw [hstep] at h1 h2 h3 h4 h5 h6
    obtain ⟨g1, g2, g3, g4, g5, g6⟩ := ih st1 c1
    exact ⟨g1.trans h1, g2.trans h2, g3.trans h3, g4.trans h4, g5.trans h5, g6.trans h6⟩

-- ───────────────────────── deepest-first ordering ─────────────

/-- Within the list `l`, every element's parent (under the computation's
parent map) occurs strictly later in `l`.  This is the essential content of
the deepest-first sort: children are processed strictly before parents. -/
def ParentsLater (parent : Nat → Option (Option Nat)) (l : List Nat) : Prop :=
  ∀ l₁ e l₂, l = l₁ ++ e :: l₂ → ∀ p, parent e = some (some p) → p ∈ l₂

/-- A list sorted deepest-first (non-increasing depth) in which every
parent is strictly shallower than its child has children strictly before
parents. -/
theorem parentsLater_of_sorted (parent : Nat → Option (Option Nat))
    (dp : Nat → Nat) (l : List Nat)
    (hsort : l.Pairwise (fun a b => dp b ≤ dp a))
    (hdepth : ∀ e p, e ∈ l → parent e = some (some p) → p ∈ l ∧ dp p < dp e) :
    ParentsLater parent l := by
  intro l₁ e l₂ hdec p hp
  have he : e ∈ l := by rw [hdec]; simp
  obtain ⟨hpl, hlt⟩ := hdepth e p he hp
  rw [hdec] at hpl hsort
  rcases List.mem_append.mp hpl with h₁ | h₂
  · exfalso
    have := (List.pairwise_append.mp hsort).2.2 p h₁ e (by simp)
    omega
  · rcases List.mem_cons.mp h₂ with h₃ | h₃
    · exfalso; rw [h₃] at hlt; omega
    · exact h₃

/-- At a decomposition `l = done ++ h :: t`, the head's parent lies in `t`,
not in `done`, and differs from `h`. -/
theorem parent_position {parent : Nat → Option (Option Nat)} {l done t : List Nat}
    {h p : Nat} (hpl : ParentsLater parent l) (hnd : l.Nodup)
    (hdec : l = done ++ h :: t) (hp : parent h = some (some p)) :
    p ∈ t ∧ p ∉ done ∧ p ≠ h := by
  have hpt : p ∈ t := hpl done h t hdec p hp
  rw [hdec] at hnd
  have hdisj := List.disjoint_of_nodup_append hnd
  have hnd2 := (List.nodup_append.mp hnd).2.1
  refine ⟨hpt, ?_, ?_⟩
  · intro hpdone
    exact hdisj hpdone (by simp [hpt])
  · intro hph
    rw [hph] at hpt
    exact (List.nodup_cons.mp hnd2).1 hpt

/-- No element of the suffix `t` has the head `h` as its parent: children
come strictly before their parents. -/
theorem no_child_in_suffix {parent : Nat → Option (Option Nat)} {l done t : List Nat}
    {h : Nat} (hpl : ParentsLater parent l) (hnd : l.Nodup)
    (hdec : l = done ++ h :: t) {e : Nat} (he : e ∈ t)
    (hpe : parent e = some (some h)) : False := by
  obtain ⟨t₁, t₂, ht⟩ := List.append_of_mem he
  have hdec2 : l = (done ++ h :: t₁) ++ e :: t₂ := by
    rw [hdec, ht]; simp
  have hh : h ∈ t₂ := hpl (done ++ h :: t₁) e t₂ hdec2 h hpe
  have hnd2 : ((done ++ h :: t₁) ++ e :: t₂).Nodup := hdec2 ▸ hnd
  have hdisj := List.disjoint_of_nodup_append hnd2
  exact hdisj (a := h) (by simp) (by simp [hh])

-- ───────────────────────── the deepest-first pass finalises everything ─────

/-- Number of tree-child directories of `d` among the paths in `l` (children
are the dirs whose parent entry is `d`). -/
def childCount (par : Nat → Option (Option Nat)) (l : List Nat) (d : Nat) : Nat :=
  l.countP (fun e => par e == some (some d))

theorem childCount_cons (par : Nat → Option (Option Nat)) (e : Nat) (l : List Nat) (d : Nat) :
    childCount par (e :: l) d =
      childCount par l d + (if par e = some (some d) then 1 else 0) := by
  unfold childCount
  rw [List.countP_cons]
  by_cases h : par e = some (some d) <;> simp [h]

/-- Invariant of the cascade pass: `done` has been processed (finished, size
published), `todo` is still untouched (local result present, not finished,
pending = its child count within `todo`). -/
def CascadeInv (par : Nat → Option (Option Nat)) (done todo : List Nat)
    (s : AppStateM × SizeComputeState) : Prop :=
  s.2.parent_dir = par ∧
  (∀ d ∈ todo, (s.2.local_done d).isSome) ∧
  (∀ d ∈ todo, s.2.pending_children d = some (childCount par todo d)) ∧
  (∀ d ∈ todo, s.2.finished d = false) ∧
  (∀ d ∈ done, s.2.finished d = true ∧ (s.1.dir_sizes d).isSome)

/-- One iteration of the pass preserves the invariant, moving the head of
`todo` into `done`: the head is ready (its children, all strictly earlier,
have been folded in), it is finalised, and its contribution lands in its
parent's accumulators (the parent is strictly later). -/
theorem cascadeInv_step {par : Nat → Option (Option Nat)} {L done t : List Nat}
    {h : Nat} {s : AppStateM × SizeComputeState}
    (hpl : ParentsLater par L) (hnd : L.Nodup) (hdec : L = done ++ h :: t)
    (hinv : CascadeInv par done (h :: t) s) :
    CascadeInv par (done ++ [h]) t (finalizeStep s h) := by
  obtain ⟨hpar, hloc, hpend, hfin, hdone⟩ := hinv
  rcases s with ⟨st, c⟩
  have hnd' : (done ++ h :: t).Nodup := hdec ▸ hnd
  have hht : h ∉ t := by
    have h2 := (List.nodup_append.mp hnd').2.1
    exact (List.nodup_cons.mp h2).1
  have hhdone : h ∉ done := fun hin =>
    List.disjoint_of_nodup_append hnd' hin (by simp)
  -- the head is ready
  have hfh : c.finished h = false := hfin h (by simp)
  obtain ⟨r, hr⟩ := Option.isSome_iff_exists.mp (hloc h (by simp))
  have hcc : childCount par (h :: t) h = 0 := by
    rw [childCount_cons]
    have h1 : childCount par t h = 0 := by
      unfold childCount
      rw [List.countP_eq_zero]
      intro e he
      simp only [beq_iff_eq]
      exact fun hpe => no_child_in_suffix hpl hnd hdec he hpe
    have h2 : ¬ par h = some (some h) := by
      intro hph
      exact (parent_position hpl hnd hdec hph).2.2 rfl
    simp [h1, h2]
  have hph' : (c.pending_children h).getD 0 = 0 := by
    rw [hpend h (by simp), hcc]; rfl
  rw [finalizeStep_of_ready hfh hr hph']
  refine ⟨?_, ?_, ?_, ?_, ?_⟩
  · rw [finalizeReady_parent_dir]; exact hpar
  · intro d hd
    have hdh : d ≠ h := fun hdh => hht (hdh ▸ hd)
    rw [finalizeReady_local_done, upd_other _ _ _ hdh]
    exact hloc d (List.mem_cons_of_mem _ hd)
  · intro d hd
    have hdh : d ≠ h := fun hdh => hht (hdh ▸ hd)
    rw [finalizeReady_pending_children, hpar]
    cases hparh : par h with
    | none =>
      simp only
      rw [hpend d (List.mem_cons_of_mem _ hd), childCount_cons, hparh]
      simp
    | some q =>
      cases q with
      | none =>
        simp only
        rw [hpend d (List.mem_cons_of_mem _ hd), childCount_cons, hparh]
        simp
      | some p =>
        obtain ⟨hpt, hpnd, hpneh⟩ := parent_position hpl hnd hdec hparh
        simp only
        by_cases hdp : d = p
        · subst hdp
          rw [if_pos rfl, hpend d (by simp [hd]), childCount_cons, hparh]
          simp
        · rw [if_neg hdp, hpend d (List.mem_cons_of_mem _ hd), childCount_cons, hparh]
          simp [Ne.symm hdp]
  · intro d hd
    have hdh : d ≠ h := fun hdh => hht (hdh ▸ hd)
    rw [finalizeReady_finished, updB_other _ _ hdh]
    exact hfin d (List.mem_cons_of_mem _ hd)
  · intro d hd
    rcases List.mem_append.mp hd with hdd | hdh
    · have hdh : d ≠ h := fun hx => hhdone (hx ▸ hdd)
      obtain ⟨hf1, hs1⟩ := hdone d hdd
      constructor
      · rw [finalizeReady_finished, updB_other _ _ hdh]; exact hf1
      · rw [finalizeReady_fst]
        simpa [upd_other _ _ _ hdh] using hs1
    · simp only [List.mem_singleton] at hdh
      subst hdh
      constructor
      · rw [finalizeReady_finished, updB_same]
      · rw [finalizeReady_fst]
        simp [upd_same]

/-- The invariant propagates along any prefix of the pass. -/
theorem cascadeInv_prefix {par : Nat → Option (Option Nat)} {L : List Nat}
    (hpl : ParentsLater par L) (hnd : L.Nodup) :
    ∀ (todo₁ todo₂ done : List Nat) (s : AppStateM × SizeComputeState),
      L = done ++ todo₁ ++ todo₂ →
      CascadeInv par done (todo₁ ++ todo₂) s →
      CascadeInv par (done ++ todo₁) todo₂ (todo₁.foldl finalizeStep s) := by
  intro todo₁
  induction todo₁ with
  | nil =>
    intro todo₂ done s hdec hinv
    simpa using hinv
  | cons h t ih =>
    intro todo₂ done s hdec hinv
    have hdec' : L = done ++ h :: (t ++ todo₂) := by
      rw [hdec]; simp
    have hstep := cascadeInv_step hpl hnd hdec' (by simpa using hinv)
    have hdec2 : L = (done ++ [h]) ++ t ++ todo₂ := by
      rw [hdec]; simp
    have := ih todo₂ (done ++ [h]) (finalizeStep s h) hdec2 hstep
    simpa [List.append_assoc] using this

-- ───────────────────────── idempotence of the pass ─────────────

/-- Once processed, a directory can never become ready again: one step keeps
every already-considered directory non-ready.  (The parent of the processed
head lies strictly later in the list, so no earlier directory's pending
counter is touched.) -/
theorem notReady_step {par : Nat → Option (Option Nat)} {L done t : List Nat}
    {h : Nat} {s : AppStateM × SizeComputeState}
    (hpl : ParentsLater par L) (hnd : L.Nodup) (hdec : L = done ++ h :: t)
    (hpar : s.2.parent_dir = par)
    (hprev : ∀ d ∈ done, ¬ Ready s.2 d) :
    ∀ d ∈ done ++ [h], ¬ Ready (finalizeStep s h).2 d := by
  rcases s with ⟨st, c⟩
  have hnd' : (done ++ h :: t).Nodup := hdec ▸ hnd
  have hhdone : h ∉ done := fun hin =>
    List.disjoint_of_nodup_append hnd' hin (by simp)
  by_cases hready : Ready c h
  · obtain ⟨hf, hs, hp⟩ := hready
    obtain ⟨r, hr⟩ := Option.isSome_iff_exists.mp hs
    rw [finalizeStep_of_ready hf hr hp]
    intro d hd
    rcases List.mem_append.mp hd with hdd | hdh
    · have hdh : d ≠ h := fun hx => hhdone (hx ▸ hdd)
      intro hready'
      apply hprev d hdd
      obtain ⟨hf', hs', hp'⟩ := hready'
      rw [finalizeReady_finished] at hf'
      rw [updB_other _ _ hdh] at hf'
      rw [finalizeReady_local_done, upd_other _ _ _ hdh] at hs'
      rw [finalizeReady_pending_children, hpar] at hp'
      refine ⟨hf', hs', ?_⟩
      cases hparh : par h with
      | none => rw [hparh] at hp'; exact hp'
      | some q =>
        cases q with
        | none => rw [hparh] at hp'; exact hp'
        | some p =>
          have hpos := parent_position hpl hnd hdec hparh
          have hdp : d ≠ p := fun hx => hpos.2.1 (hx ▸ hdd)
          rw [hparh] at hp'
          simpa [hdp] using hp'
    · simp only [List.mem_singleton] at hdh
      subst hdh
      intro hready'
      obtain ⟨hf', _, _⟩ := hready'
      rw [finalizeReady_finished, updB_same] at hf'
      exact Bool.true_eq_false.mp hf'
  · rw [finalizeStep_of_not_ready hready]
    intro d hd
    rcases List.mem_append.mp hd with hdd | hdh
    · exact hprev d hdd
    · simp only [List.mem_singleton] at hdh
      subst hdh
      exact hready

/-- After the whole pass, no directory of the list is ready. -/
theorem notReady_pass {par : Nat → Option (Option Nat)} {L : List Nat}
    (hpl : ParentsLater par L) (hnd : L.Nodup) :
    ∀ (todo done : List Nat) (s : AppStateM × SizeComputeState),
      L = done ++ todo → s.2.parent_dir = par →
      (∀ d ∈ done, ¬ Ready s.2 d) →
      (∀ d ∈ done ++ todo, ¬ Ready (todo.foldl finalizeStep s).2 d) := by
  intro todo
  induction todo with
  | nil =>
    intro done s hdec hpar hprev
    simpa using hprev
  | cons h t ih =>
    intro done s hdec hpar hprev
    have hstep := notReady_step hpl hnd hdec hpar hprev
    have hpar' : (finalizeStep s h).2.parent_dir = par := by
      rcases s with ⟨st, c⟩
      rw [(finalizeStep_frame st c h).2.1, hpar]
    have hdec2 : L = (done ++ [h]) ++ t := by rw [hdec]; simp
    have := ih (done ++ [h]) (finalizeStep s h) hdec2 hpar' hstep
    intro d hd
    have hd' : d ∈ (done ++ [h]) ++ t := by simpa [List.append_assoc] using hd
    simpa [List.foldl_cons] using this d hd'

/-- A pass over directories none of which is ready does nothing at all. -/
theorem pass_id_of_notReady :
    ∀ (l : List Nat) (st : AppStateM) (c : SizeComputeState),
      (∀ d ∈ l, ¬ Ready c d) → l.foldl finalizeStep (st, c) = (st, c) := by
  intro l
  induction l with
  | nil => intro st c _; rfl
  | cons h t ih =>
    intro st c hnr
    simp only [List.foldl_cons]
    rw [finalizeStep_of_not_ready (hnr h (by simp))]
    exact ih st c (fun d hd => hnr d (List.mem_cons_of_mem _ hd))

-- ───────────────────────── congruence of the pass ─────────────

/-- Pointwise equality of the fields of two computations that the cascade
reads and writes (generation, worker count and cancel flag play no part in
`finalize_ready_dirs`). -/
def CoreEq (c₁ c₂ : SizeComputeState) : Prop :=
  c₁.dirs = c₂.dirs ∧
  (∀ q, c₁.parent_dir q = c₂.parent_dir q) ∧
  (∀ q, c₁.pending_children q = c₂.pending_children q) ∧
  (∀ q, c₁.children_unique q = c₂.children_unique q) ∧
  (∀ q, c₁.children_hardlinks q = c₂.children_hardlinks q) ∧
  (∀ q, c₁.local_done q = c₂.local_done q) ∧
  (∀ q, c₁.finished q = c₂.finished q)

theorem ready_congr {c₁ c₂ : SizeComputeState} (h : CoreEq c₁ c₂) (d : Nat) :
    Ready c₁ d ↔ Ready c₂ d := by
  obtain ⟨-, -, hpc, -, -, hld, hfin⟩ := h
  unfold Ready
  rw [hpc d, hld d, hfin d]

theorem readyTotalUnique_congr {c₁ c₂ : SizeComputeState} (h : CoreEq c₁ c₂)
    (d : Nat) (r : DirLocalResult) :
    readyTotalUnique c₁ d r = readyTotalUnique c₂ d r := by
  unfold readyTotalUnique
  rw [h.2.2.2.1 d]

theorem readyMerged_congr {c₁ c₂ : SizeComputeState} (h : CoreEq c₁ c₂)
    (d : Nat) (r : DirLocalResult) :
    readyMerged c₁ d r = readyMerged c₂ d r := by
  unfold readyMerged
  rw [h.2.2.2.2.1 d]

theorem readyTotal_congr {c₁ c₂ : SizeComputeState} (h : CoreEq c₁ c₂)
    (d : Nat) (r : DirLocalResult) :
    readyTotal c₁ d r = readyTotal c₂ d r := by
  unfold readyTotal
  rw [readyTotalUnique_congr h, readyMerged_congr h]

theorem upd_congr {α : Type} {m₁ m₂ : Nat → Option α} (k : Nat) (v : Option α)
    {p : Nat} (h : m₁ p = m₂ p) : upd m₁ k v p = upd m₂ k v p := by
  unfold upd
  by_cases hp : p = k <;> simp [hp, h]

theorem coreEq_finalizeReady {c₁ c₂ : SizeComputeState} (hce : CoreEq c₁ c₂)
    (st₁ st₂ : AppStateM) (d : Nat) (r : DirLocalResult) :
    CoreEq (finalizeReady st₁ c₁ d r).2 (finalizeReady st₂ c₂ d r).2 := by
  obtain ⟨hdirs, hpar, hpc, hcu, hch, hld, hfin⟩ := hce
  refine ⟨?_, ?_, ?_, ?_, ?_, ?_, ?_⟩
  · rw [finalizeReady_dirs, finalizeReady_dirs, hdirs]
  · intro q
    rw [finalizeReady_parent_dir, finalizeReady_parent_dir, hpar q]
  · intro q
    rw [finalizeReady_pending_children, finalizeReady_pending_children, ← hpar d]
    cases hpd : c₁.parent_dir d with
    | none => exact hpc q
    | some qq =>
      cases qq with
      | none => exact hpc q
      | some p =>
        simp only
        by_cases hqp : q = p
        · rw [if_pos hqp, if_pos hqp, ← hpc p]
          cases c₁.pending_children p <;> simp [hpc q]
        · rw [if_neg hqp, if_neg hqp]
          exact hpc q
  · intro q
    rw [finalizeReady_children_unique, finalizeReady_children_unique, ← hpar d]
    cases hpd : c₁.parent_dir d with
    | none => exact upd_congr _ _ (hcu q)
    | some qq =>
      cases qq with
      | none => exact upd_congr _ _ (hcu q)
      | some p =>
        simp only
        by_cases hqp : q = p
        · rw [if_pos hqp, if_pos hqp,
            ← @upd_congr _ c₁.children_unique c₂.children_unique d none p (hcu p)]
          rw [← readyTotalUnique_congr ⟨hdirs, hpar, hpc, hcu, hch, hld, hfin⟩ d r]
          cases upd c₁.children_unique d none p <;> simp [upd_congr _ _ (hcu q)]
        · rw [if_neg hqp, if_neg hqp]
          exact upd_congr _ _ (hcu q)
  · intro q
    rw [finalizeReady_children_hardlinks, finalizeReady_children_hardlinks, ← hpar d]
    cases hpd : c₁.parent_dir d with
    | none => exact upd_congr _ _ (hch q)
    | some qq =>
      cases qq with
      | none => exact upd_congr _ _ (hch q)
      | some p =>
        simp only
        by_cases hqp : q = p
        · rw [if_pos hqp, if_pos hqp,
            ← @upd_congr _ c₁.children_hardlinks c₂.children_hardlinks d none p (hch p)]
          rw [← readyMerged_congr ⟨hdirs, hpar, hpc, hcu, hch, hld, hfin⟩ d r]
        · rw [if_neg hqp, if_neg hqp]
          exact upd_congr _ _ (hch q)
  · intro q
    rw [finalizeReady_local_done, finalizeReady_local_done]
    exact upd_congr _ _ (hld q)
  · intro q
    rw [finalizeReady_finished, finalizeReady_finished]
    unfold updB
    by_cases hq : q = d <;> simp [hq, hfin q]

/-- One pass started from core-equal computations stays core-equal, and at
every path either both runs published the same value or neither run touched
the entry (each keeping its own previous `dir_sizes` value).  The published
values are therefore a function of the computation core alone. -/
theorem finalizeFold_congr :
    ∀ (l : List Nat) (st₁ st₂ : AppStateM) (c₁ c₂ : SizeComputeState),
      CoreEq c₁ c₂ →
      CoreEq (l.foldl finalizeStep (st₁, c₁)).2 (l.foldl finalizeStep (st₂, c₂)).2 ∧
      ∀ p, ((l.foldl finalizeStep (st₁, c₁)).1.dir_sizes p =
              (l.foldl finalizeStep (st₂, c₂)).1.dir_sizes p) ∨
           ((l.foldl finalizeStep (st₁, c₁)).1.dir_sizes p = st₁.dir_sizes p ∧
            (l.foldl finalizeStep (st₂, c₂)).1.dir_sizes p = st₂.dir_sizes p) := by
  intro l
  induction l with
  | nil =>
    intro st₁ st₂ c₁ c₂ hce
    exact ⟨hce, fun p => Or.inr ⟨rfl, rfl⟩⟩
  | cons d t ih =>
    intro st₁ st₂ c₁ c₂ hce
    simp only [List.foldl_cons]
    by_cases hr : Ready c₁ d
    · have hr₂ : Ready c₂ d := (ready_congr hce d).mp hr
      obtain ⟨hf₁, hs₁, hp₁⟩ := hr
      obtain ⟨hf₂, hs₂, hp₂⟩ := hr₂
      obtain ⟨r₁, hr₁⟩ := Option.isSome_iff_exists.mp hs₁
      have hr₂' : c₂.local_done d = some r₁ := by rw [← hce.2.2.2.2.2.1 d]; exact hr₁
      rw [finalizeStep_of_ready hf₁ hr₁ hp₁, finalizeStep_of_ready hf₂ hr₂' hp₂]
      have hce' := coreEq_finalizeReady hce st₁ st₂ d r₁
      obtain ⟨ihce, ihds⟩ := ih (finalizeReady st₁ c₁ d r₁).1 (finalizeReady st₂ c₂ d r₁).1
        (finalizeReady st₁ c₁ d r₁).2 (finalizeReady st₂ c₂ d r₁).2 hce'
      have e₁ : ∀ p, (finalizeReady st₁ c₁ d r₁).1.dir_sizes p =
          upd st₁.dir_sizes d (some (readyTotal c₁ d r₁)) p := by
        intro p; rw [finalizeReady_fst]
      have e₂ : ∀ p, (finalizeReady st₂ c₂ d r₁).1.dir_sizes p =
          upd st₂.dir_sizes d (some (readyTotal c₂ d r₁)) p := by
        intro p; rw [finalizeReady_fst]
      refine ⟨ihce, ?_⟩
      intro p
      rcases ihds p with heq | ⟨hk₁, hk₂⟩
      · exact Or.inl heq
      · by_cases hpd : p = d
        · left
          calc (List.foldl finalizeStep (finalizeReady st₁ c₁ d r₁) t).1.dir_sizes p
              = (finalizeReady st₁ c₁ d r₁).1.dir_sizes p := hk₁
            _ = some (readyTotal c₁ d r₁) := by rw [e₁ p, hpd, upd_same]
            _ = some (readyTotal c₂ d r₁) := by rw [readyTotal_congr hce]
            _ = (finalizeReady st₂ c₂ d r₁).1.dir_sizes p := by rw [e₂ p, hpd, upd_same]
            _ = (List.foldl finalizeStep (finalizeReady st₂ c₂ d r₁) t).1.dir_sizes p :=
              hk₂.symm
        · right
          constructor
          · exact hk₁.trans ((e₁ p).trans (upd_other _ _ _ hpd))
          · exact hk₂.trans ((e₂ p).trans (upd_other _ _ _ hpd))
    · have hr₂ : ¬ Ready c₂ d := fun hx => hr ((ready_congr hce d).mpr hx)
      rw [finalizeStep_of_not_ready hr, finalizeStep_of_not_ready hr₂]
      exact ih st₁ st₂ c₁ c₂ hce

-- ───────────────────────── concrete fixtures for witnesses ─────────────

/-- Helper to build `ParentsLater` witnesses on one-element lists. -/
theorem parentsLater_single {par : Nat → Option (Option Nat)} {x : Nat}
    (hx : ∀ p, ¬ par x = some (some p)) : ParentsLater par [x] := by
  intro l₁ e l₂ hdec p hp
  rcases l₁ with _ | ⟨a, l₁⟩
  · simp only [List.nil_append, List.cons.injEq] at hdec
    obtain ⟨he, -⟩ := hdec
    exact absurd (he ▸ hp) (hx p)
  · exfalso
    have := congrArg List.length hdec
    simp at this

/-- Helper to build `ParentsLater` witnesses on two-element lists. -/
theorem parentsLater_pair {par : Nat → Option (Option Nat)} {x y : Nat}
    (hx : ∀ p, par x = some (some p) → p = y)
    (hy : ∀ p, ¬ par y = some (some p)) : ParentsLater par [x, y] := by
  intro l₁ e l₂ hdec p hp
  rcases l₁ with _ | ⟨a, l₁⟩
  · simp only [List.nil_append, List.cons.injEq] at hdec
    obtain ⟨he, hl⟩ := hdec
    subst he hl
    simp [hx p hp]
  · rcases l₁ with _ | ⟨b, l₁⟩
    · simp only [List.cons_append, List.nil_append, List.cons.injEq] at hdec
      obtain ⟨-, he, -⟩ := hdec
      exact absurd (he ▸ hp) (hy p)
    · exfalso
      have := congrArg List.length hdec
      simp at this

/-- A two-directory computation (child `1` below parent `0`), ready to
cascade, used as a concrete witness input. -/
def exParent : Nat → Option (Option Nat) :=
  fun p => if p = 1 then some (some 0) else if p = 0 then some none else none

/-- Fixture computation state: dirs `[1, 0]` deepest-first, both with local
results, parent `0` waiting on one child. -/
def exCompute : SizeComputeState where
  generation := 1
  remaining_workers := 0
  dirs := [1, 0]
  parent_dir := exParent
  pending_children := fun p => if p = 1 then some 0 else if p = 0 then some 1 else none
  children_unique := fun p => if p ≤ 1 then some 0 else none
  children_hardlinks := fun p => if p ≤ 1 then some [] else none
  local_done := fun p =>
    if p = 1 then some ⟨100, [((0, 5), 7)]⟩
    else if p = 0 then some ⟨50, []⟩ else none
  finished := fun _ => false
  cancel := false

/-- Fixture engine caches. -/
def exState : AppStateM where
  size_compute_generation := 1
  file_sizes := fun _ => none
  dir_local_sums := fun _ => none
  dir_sizes := fun _ => none

-- ───────────────────────── claim C1 ─────────────

/-- C1: whenever the cascade finalises a ready directory `d`, the published
total is `local.unique_sum + children_unique[d] + Σ merged.values()` (with
the engine's u64 arithmetic), where `merged` is the first-seen-wins union of
`local.hardlinks` and `children_hardlinks[d]` with the larger map as base:
the base's binding wins on duplicate keys, and each inode key occurs exactly
once in `merged`. -/
theorem c1_finalize_total_formula (state : AppStateM) (compute : SizeComputeState)
    (dir : Nat) (localRes : DirLocalResult)
    (hf : compute.finished dir = false)
    (hl : compute.local_done dir = some localRes)
    (hp : (compute.pending_children dir).getD 0 = 0)
    (hn1 : localRes.hardlinks.NodupKeys)
    (hn2 : ((compute.children_hardlinks dir).getD []).NodupKeys) :
    (finalizeStep (state, compute) dir).1.dir_sizes dir =
      some (satAdd
        (satAdd localRes.unique_sum ((compute.children_unique dir).getD 0))
        (hardlinkBytes (readyMerged compute dir localRes))) ∧
    (∀ k, (readyMerged compute dir localRes).find k =
      if ((compute.children_hardlinks dir).getD []).length ≤ localRes.hardlinks.length
      then (localRes.hardlinks.find k).orElse
             (fun _ => ((compute.children_hardlinks dir).getD []).find k)
      else (((compute.children_hardlinks dir).getD []).find k).orElse
             (fun _ => localRes.hardlinks.find k)) ∧
    (readyMerged compute dir localRes).NodupKeys := by
  refine ⟨?_, ?_, ?_⟩
  · rw [finalizeStep_of_ready hf hl hp, finalizeReady_fst]
    simp only [upd_same]
    rfl
  · intro k
    unfold readyMerged
    by_cases hlen : ((compute.children_hardlinks dir).getD []).length ≤ localRes.hardlinks.length
    · rw [if_pos hlen, if_pos hlen, InodeMap.find_mergeInto]
    · rw [if_neg hlen, if_neg hlen, InodeMap.find_mergeInto]
  · unfold readyMerged
    by_cases hlen : ((compute.children_hardlinks dir).getD []).length ≤ localRes.hardlinks.length
    · rw [if_pos hlen]; exact InodeMap.nodupKeys_mergeInto hn1 _
    · rw [if_neg hlen]; exact InodeMap.nodupKeys_mergeInto hn2 _

/-- Witness for C1 at the fixture: directory `1` is ready with local result
`⟨100, {(0,5) ↦ 7}⟩` and no child contributions. -/
theorem c1_witness :
    (exCompute.finished 1 = false ∧
     exCompute.local_done 1 = some ⟨100, [((0, 5), 7)]⟩ ∧
     (exCompute.pending_children 1).getD 0 = 0 ∧
     InodeMap.NodupKeys [((0, 5), 7)] ∧
     ((exCompute.children_hardlinks 1).getD []).NodupKeys) ∧
    (finalizeStep (exState, exCompute) 1).1.dir_sizes 1 =
      some (satAdd (satAdd 100 ((exCompute.children_unique 1).getD 0))
        (hardlinkBytes (readyMerged exCompute 1 ⟨100, [((0, 5), 7)]⟩))) :=
  ⟨⟨by decide, by decide, by decide, by decide, by decide⟩,
   (c1_finalize_total_formula exState exCompute 1 ⟨100, [((0, 5), 7)]⟩
     (by decide) (by decide) (by decide) (by decide) (by decide)).1⟩

-- ───────────────────────── claim C10 ─────────────

/-- C10: `finalize_ready_dirs` is idempotent.  On the deepest-first dir lists
the engine builds (no duplicates, every parent strictly later than its
child), running the pass a second time with no new `local_done` entries
returns the state completely unchanged: `dir_sizes`, `pending_children`,
`children_unique`, `children_hardlinks`, `local_done` and `finished` of
every directory are exactly as the first pass left them. -/
theorem c10_finalize_ready_dirs_idempotent (state : AppStateM) (compute : SizeComputeState)
    (hnd : compute.dirs.Nodup) (hpl : ParentsLater compute.parent_dir compute.dirs) :
    finalize_ready_dirs (finalize_ready_dirs state compute).1
        (finalize_ready_dirs state compute).2 =
      finalize_ready_dirs state compute := by
  unfold finalize_ready_dirs
  have hdirs : (compute.dirs.foldl finalizeStep (state, compute)).2.dirs = compute.dirs :=
    (finalizeFold_frame _ _ _).1
  have hnr := notReady_pass hpl hnd
    compute.dirs [] (state, compute) rfl rfl (by simp)
  rw [hdirs]
  exact pass_id_of_notReady compute.dirs
    (compute.dirs.foldl finalizeStep (state, compute)).1
    (compute.dirs.foldl finalizeStep (state, compute)).2
    (fun d hd => hnr d (by simpa using hd))

/-- Witness for C10 at the two-directory fixture. -/
theorem c10_witness :
    (exCompute.dirs.Nodup ∧ ParentsLater exCompute.parent_dir exCompute.dirs) ∧
    finalize_ready_dirs (finalize_ready_dirs exState exCompute).1
        (finalize_ready_dirs exState exCompute).2 =
      finalize_ready_dirs exState exCompute :=
  ⟨⟨by decide,
    parentsLater_pair (fun p hp => by simpa [exCompute, exParent, eq_comm] using hp)
      (fun p hp => by simp [exCompute, exParent] at hp)⟩,
   c10_finalize_ready_dirs_idempotent exState exCompute (by decide)
     (parentsLater_pair (fun p hp => by simpa [exCompute, exParent, eq_comm] using hp)
       (fun p hp => by simp [exCompute, exParent] at hp))⟩

-- ───────────────────────── claim C5 ─────────────

/-- C5: a stale update (generation different from the engine's current
generation) is discarded whole: `apply_size_update` returns `false` (so the
event loop does not run `finalize_ready_dirs` for it) and the state is
untouched.  Moreover no call of `apply_size_update` — stale or fresh — ever
writes `EngineCaches.dir_sizes`, so a stale message can mutate `dir_sizes`
neither directly nor by triggering a finalisation. -/
theorem c5_stale_update_discarded (state : AppStateM)
    (size_compute : Option SizeComputeState) (generation : Nat) (update : SizeUpdateM)
    (hstale : generation ≠ state.size_compute_generation) :
    apply_size_update state size_compute generation update = (state, size_compute, false) ∧
    ∀ (g : Nat) (u : SizeUpdateM),
      (apply_size_update state size_compute g u).1.dir_sizes = state.dir_sizes := by
  constructor
  · simp [apply_size_update, hstale]
  · intro g u
    unfold apply_size_update
    by_cases hg : g ≠ state.size_compute_generation
    · simp [hg]
    · cases size_compute with
      | none => simp [hg]
      | some compute =>
        by_cases hcg : compute.generation ≠ g
        · simp [hg, hcg]
        · cases u <;> simp [hg, hcg]

/-- Witness for C5: generation 2 against current generation 1. -/
theorem c5_witness :
    ((2 : Nat) ≠ exState.size_compute_generation) ∧
    (apply_size_update exState (some exCompute) 2 (.File 3 40) =
        (exState, some exCompute, false) ∧
     ∀ (g : Nat) (u : SizeUpdateM),
       (apply_size_update exState (some exCompute) g u).1.dir_sizes = exState.dir_sizes) :=
  ⟨by decide, c5_stale_update_discarded exState (some exCompute) 2 (.File 3 40) (by decide)⟩

-- ───────────────────────── claim C9 ─────────────

/-- C9: `apply_size_update` is atomic on generation mismatch with the current
computation: when the tag differs from `compute.generation` it returns
`false` and leaves the whole state unchanged — including `file_sizes` and
`dir_local_sums`, so even a stale `File` update is not written (stricter
than the spec's allowance). -/
theorem c9_stale_update_frame (state : AppStateM) (compute : SizeComputeState)
    (generation : Nat) (update : SizeUpdateM)
    (hstale : generation ≠ compute.generation) :
    apply_size_update state (some compute) generation update =
      (state, some compute, false) := by
  unfold apply_size_update
  by_cases hg : generation ≠ state.size_compute_generation
  · simp [hg]
  · have : compute.generation ≠ generation := fun hx => hstale hx.symm
    simp [hg, this]

/-- Witness for C9: a stale `File` update (generation 5, computation
generation 1) writes nothing, not even `file_sizes`. -/
theorem c9_witness :
    ((5 : Nat) ≠ exCompute.generation) ∧
    apply_size_update exState (some exCompute) 5 (.File 3 40) =
      (exState, some exCompute, false) :=
  ⟨by decide, c9_stale_update_frame exState exCompute 5 (.File 3 40) (by decide)⟩

-- ───────────────────────── claim C2 ─────────────

/-- C2: on a dir list sorted deepest-first (every parent strictly shallower
than its children, ties arbitrary) with no duplicates, a single forward pass
of `finalize_ready_dirs` finalises every child strictly before its parent is
considered (when the pass reaches any directory `p`, every tree child of `p`
is already in the finished set), and if a local result is present for every
directory and every `pending_children` counter equals the directory's tree
child count, the one pass finalises all N directories — publishing a size
for each — with no second pass needed. -/
theorem c2_single_pass_converges (state : AppStateM) (compute : SizeComputeState)
    (dp : Nat → Nat)
    (hsort : compute.dirs.Pairwise (fun a b => dp b ≤ dp a))
    (hdepth : ∀ e p, e ∈ compute.dirs → compute.parent_dir e = some (some p) →
        p ∈ compute.dirs ∧ dp p < dp e)
    (hnd : compute.dirs.Nodup)
    (hloc : ∀ d ∈ compute.dirs, (compute.local_done d).isSome)
    (hpend : ∀ d ∈ compute.dirs, compute.pending_children d =
        some (childCount compute.parent_dir compute.dirs d))
    (hfin : ∀ d, compute.finished d = false) :
    (∀ d ∈ compute.dirs,
        (finalize_ready_dirs state compute).2.finished d = true ∧
        ((finalize_ready_dirs state compute).1.dir_sizes d).isSome) ∧
    (∀ done p t, compute.dirs = done ++ p :: t →
        ∀ e ∈ compute.dirs, compute.parent_dir e = some (some p) →
          (done.foldl finalizeStep (state, compute)).2.finished e = true) := by
  have hpl := parentsLater_of_sorted compute.parent_dir dp compute.dirs hsort hdepth
  have hinv0 : CascadeInv compute.parent_dir [] compute.dirs (state, compute) :=
    ⟨rfl, hloc, hpend, fun d _ => hfin d, by simp⟩
  constructor
  · have hfull := cascadeInv_prefix hpl hnd compute.dirs [] [] (state, compute)
      (by simp) (by simpa using hinv0)
    intro d hd
    exact hfull.2.2.2.2 d (by simpa using hd)
  · intro done p t hdec e he hpe
    have hedone : e ∈ done := by
      rw [hdec] at he
      rcases List.mem_append.mp he with h1 | h2
      · exact h1
      · exfalso
        rcases List.mem_cons.mp h2 with h3 | h3
        · subst h3
          exact (parent_position hpl hnd hdec hpe).2.2 rfl
        · exact no_child_in_suffix hpl hnd hdec h3 hpe
    have hpref := cascadeInv_prefix hpl hnd done (p :: t) [] (state, compute)
      (by simp [hdec]) (by simpa [hdec] using hinv0)
    exact (hpref.2.2.2.2 e (by simpa using hedone)).1

/-- Witness for C2 at the two-directory fixture (`dirs = [1, 0]`, child `1`
of parent `0`, both local results cached). -/
theorem c2_witness :
    (exCompute.dirs.Pairwise
        (fun a b => (if b = 1 then 1 else 0) ≤ (if a = 1 then 1 else 0)) ∧
     (∀ e p, e ∈ exCompute.dirs → exCompute.parent_dir e = some (some p) →
        p ∈ exCompute.dirs ∧
          (if p = 1 then 1 else 0) < (if e = 1 then 1 else 0)) ∧
     exCompute.dirs.Nodup ∧
     (∀ d ∈ exCompute.dirs, (exCompute.local_done d).isSome) ∧
     (∀ d ∈ exCompute.dirs, exCompute.pending_children d =
        some (childCount exCompute.parent_dir exCompute.dirs d)) ∧
     (∀ d, exCompute.finished d = false)) ∧
    (∀ d ∈ exCompute.dirs,
        (finalize_ready_dirs exState exCompute).2.finished d = true ∧
        ((finalize_ready_dirs exState exCompute).1.dir_sizes d).isSome) := by
  have hdepth : ∀ e p, e ∈ exCompute.dirs → exCompute.parent_dir e = some (some p) →
      p ∈ exCompute.dirs ∧ (if p = 1 then 1 else 0) < (if e = 1 then 1 else 0) := by
    intro e p he hp
    rcases List.mem_cons.mp he with h1 | h2
    · subst h1
      have : p = 0 := by simpa [exCompute, exParent, eq_comm] using hp
      subst this
      exact ⟨by decide, by decide⟩
    · exfalso
      rcases List.mem_cons.mp h2 with h3 | h3
      · subst h3; simp [exCompute, exParent] at hp
      · simp [exCompute] at h3
  refine ⟨⟨by decide, hdepth, by decide, by decide, by decide, fun d => rfl⟩, ?_⟩
  exact (c2_single_pass_converges exState exCompute (fun p => if p = 1 then 1 else 0)
    (by decide) hdepth (by decide) (by decide) (by decide) (fun d => rfl)).1

-- ───────────────────────── claim C7 ─────────────

/-- Unfolding equation of the walker loop at a successfully read directory. -/
theorem walkLoop_cons_some (dedup ofs : Bool) (rootDev : Nat) (cancel : Bool)
    (es : List FsEntry) (stack : List (Option (List FsEntry))) (us : Nat) (hl : InodeMap) :
    walkLoop dedup ofs rootDev cancel (some es :: stack) us hl =
      if cancel then (us, hl)
      else
        walkLoop dedup ofs rootDev cancel
          (((es.foldl (walkStep dedup ofs rootDev) (us, hl, [])).2.2).reverse ++ stack)
          (es.foldl (walkStep dedup ofs rootDev) (us, hl, [])).1
          (es.foldl (walkStep dedup ofs rootDev) (us, hl, [])).2.1 := by
  rw [walkLoop]

/-- C7: with `one_file_system` enabled, a subdirectory whose stat reports a
device different from the root device is skipped by both walkers and
contributes nothing: the worker's one-level loop leaves its accumulator (and
message list) unchanged, the subtree walker's loop body leaves its
accumulator and stack unchanged, and a whole subtree walk over a listing
containing such a directory equals the walk with that entry removed. -/
theorem c7_one_file_system_skips (ctx : WorkerCtx) (cancel : Bool)
    (acc : Nat × InodeMap × List SizeUpdateM)
    (wacc : Nat × InodeMap × List (Option (List FsEntry)))
    (path dv : Nat) (listing : Option (List FsEntry))
    (es₁ es₂ : List FsEntry)
    (hofs : ctx.one_file_system = true) (hdv : dv ≠ ctx.root_dev) :
    workerStep ctx cancel acc (.dirE path (some dv) listing) = acc ∧
    walkStep ctx.dedup_hard_links true ctx.root_dev wacc (.dirE path (some dv) listing) = wacc ∧
    recursive_dir_size (some (es₁ ++ .dirE path (some dv) listing :: es₂)) cancel
        ctx.dedup_hard_links true ctx.root_dev =
      recursive_dir_size (some (es₁ ++ es₂)) cancel ctx.dedup_hard_links true ctx.root_dev := by
  have hsame : is_same_device dv ctx.root_dev = false := by
    simp [is_same_device, hdv]
  have hwalk : ∀ (a : Nat × InodeMap × List (Option (List FsEntry))),
      walkStep ctx.dedup_hard_links true ctx.root_dev a (.dirE path (some dv) listing) = a := by
    intro a
    simp [walkStep, hsame]
  refine ⟨?_, hwalk wacc, ?_⟩
  · cases htree : ctx.tree_dirs.contains path <;>
      simp [workerStep, htree, hofs, hsame]
  · unfold recursive_dir_size
    rw [walkLoop_cons_some, walkLoop_cons_some]
    by_cases hc : cancel
    · simp [hc]
    · simp only [hc, if_false]
      have hfold : (es₁ ++ FsEntry.dirE path (some dv) listing :: es₂).foldl
          (walkStep ctx.dedup_hard_links true ctx.root_dev) ((0 : Nat), ([] : InodeMap), ([] : List (Option (List FsEntry)))) =
          (es₁ ++ es₂).foldl (walkStep ctx.dedup_hard_links true ctx.root_dev) (0, [], []) := by
        rw [List.foldl_append, List.foldl_append, List.foldl_cons, hwalk]
      rw [hfold]

/-- Witness for C7: device 3 against root device 0 with a non-empty subtree
listing; the entry contributes nothing. -/
theorem c7_witness :
    ((WorkerCtx.mk [] true true 0).one_file_system = true ∧ (3 : Nat) ≠ (WorkerCtx.mk [] true true 0).root_dev) ∧
    workerStep (WorkerCtx.mk [] true true 0) false (0, [], [])
        (.dirE 9 (some 3) (some [.fileE 4 (some ⟨10, 1, 0, 1⟩)])) = (0, [], []) :=
  ⟨⟨rfl, by decide⟩,
   (c7_one_file_system_skips (WorkerCtx.mk [] true true 0) false (0, [], []) (0, [], [])
     9 3 (some [.fileE 4 (some ⟨10, 1, 0, 1⟩)]) [] [] rfl (by decide)).1⟩

-- ───────────────────────── claim C8 ─────────────

/-- C8: when `read_dir` fails on a tree directory, the worker still emits a
`DirLocalDone` for it carrying an empty local result (`unique_sum = 0`,
empty hard-link map) and nothing else; a directory whose local result is
empty finalises normally — it enters the finished set and its published
total is exactly the children contribution, i.e. zero local bytes. -/
theorem c8_read_dir_failure_finalises (ctx : WorkerCtx) (cancel : Bool) (dir : Nat)
    (state : AppStateM) (compute : SizeComputeState)
    (hf : compute.finished dir = false)
    (hl : compute.local_done dir = some ⟨0, []⟩)
    (hp : (compute.pending_children dir).getD 0 = 0)
    (hcu : (compute.children_unique dir).getD 0 ≤ u64MAX) :
    processJob ctx cancel dir none = [.DirLocalDone dir 0 []] ∧
    (finalizeStep (state, compute) dir).1.dir_sizes dir =
      some (satAdd ((compute.children_unique dir).getD 0)
        (hardlinkBytes ((compute.children_hardlinks dir).getD []))) ∧
    (finalizeStep (state, compute) dir).2.finished dir = true := by
  refine ⟨rfl, ?_, ?_⟩
  · rw [finalizeStep_of_ready hf hl hp, finalizeReady_fst]
    simp only [upd_same]
    have hmerged : readyMerged compute dir ⟨0, []⟩ =
        (compute.children_hardlinks dir).getD [] := by
      unfold readyMerged
      rcases hch : (compute.children_hardlinks dir).getD [] with _ | ⟨kv, rest⟩
      · simp [InodeMap.mergeInto]
      · simp only [List.length_cons, List.length_nil]
        rw [if_neg (by omega)]
        rfl
    unfold readyTotal readyTotalUnique
    rw [hmerged]
    have hz : satAdd 0 ((compute.children_unique dir).getD 0) =
        (compute.children_unique dir).getD 0 := by
      unfold satAdd
      omega
    rw [hz]
  · rw [finalizeStep_of_ready hf hl hp, finalizeReady_finished, updB_same]

/-- Fixture for C8: a single directory `4` with a failed-read (empty) local
result and non-trivial children contributions. -/
def exComputeFail : SizeComputeState where
  generation := 1
  remaining_workers := 0
  dirs := [4]
  parent_dir := fun p => if p = 4 then some none else none
  pending_children := fun p => if p = 4 then some 0 else none
  children_unique := fun p => if p = 4 then some 123 else none
  children_hardlinks := fun p => if p = 4 then some [((1, 1), 9)] else none
  local_done := fun p => if p = 4 then some ⟨0, []⟩ else none
  finished := fun _ => false
  cancel := false

/-- Witness for C8 at the fixture. -/
theorem c8_witness :
    (exComputeFail.finished 4 = false ∧
     exComputeFail.local_done 4 = some ⟨0, []⟩ ∧
     (exComputeFail.pending_children 4).getD 0 = 0 ∧
     (exComputeFail.children_unique 4).getD 0 ≤ u64MAX) ∧
    (processJob (WorkerCtx.mk [] true false 0) false 4 none = [.DirLocalDone 4 0 []] ∧
     (finalizeStep (exState, exComputeFail) 4).1.dir_sizes 4 =
       some (satAdd ((exComputeFail.children_unique 4).getD 0)
         (hardlinkBytes ((exComputeFail.children_hardlinks 4).getD []))) ∧
     (finalizeStep (exState, exComputeFail) 4).2.finished 4 = true) :=
  ⟨⟨by decide, by decide, by decide, by decide⟩,
   c8_read_dir_failure_finalises (WorkerCtx.mk [] true false 0) false 4 exState exComputeFail
     (by decide) (by decide) (by decide) (by decide)⟩

-- ───────────────────────── claim C4 ─────────────

/-- Fixture whose merged hard-link map overflows u64: one directory with two
distinct hard-linked inodes of `u64::MAX` bytes each. -/
def exComputeWrap : SizeComputeState where
  generation := 1
  remaining_workers := 0
  dirs := [0]
  parent_dir := fun p => if p = 0 then some none else none
  pending_children := fun p => if p = 0 then some 0 else none
  children_unique := fun p => if p = 0 then some 0 else none
  children_hardlinks := fun p => if p = 0 then some [] else none
  local_done := fun p =>
    if p = 0 then some ⟨0, [((0, 0), u64MAX), ((0, 1), u64MAX)]⟩ else none
  finished := fun _ => false
  cancel := false

/-- Counterexample to C4 as stated: the hard-link byte sum
(`merged_hardlinks.values().sum()`) does not saturate.  With two inodes of
`u64::MAX` bytes the engine publishes `u64::MAX - 1` (the sum wrapped modulo
`2^64`), whereas clamping at `u64::MAX` would publish `u64::MAX`. -/
theorem c4_counterexample :
    (finalize_ready_dirs exState exComputeWrap).1.dir_sizes 0 = some (u64MAX - 1) ∧
    min (InodeMap.valuesSum [((0, 0), u64MAX), ((0, 1), u64MAX)]) u64MAX = u64MAX ∧
    u64MAX - 1 ≠ u64MAX := by
  refine ⟨?_, by decide, by decide⟩
  have h1 : Ready exComputeWrap 0 := by decide
  unfold finalize_ready_dirs
  show (finalizeStep (exState, exComputeWrap) 0).1.dir_sizes 0 = some (u64MAX - 1)
  rw [@finalizeStep_of_ready exState exComputeWrap 0
    ⟨0, [((0, 0), u64MAX), ((0, 1), u64MAX)]⟩ (by decide) (by decide) (by decide)]
  rw [finalizeReady_fst]
  simp only [upd_same]
  decide

/-- C4 amended: every accumulation except the merged hard-link byte sum uses
saturating u64 arithmetic and clamps at `u64::MAX`; the hard-link byte sum
alone is an ordinary `u64` `Iterator::sum`, which wraps modulo `2^64` in
release builds instead of clamping.  Concretely, at every finalisation
`total_unique` is `min (local.unique_sum + children_unique) u64MAX`, the
hard-link bytes are `valuesSum % 2^64`, the published total is
`min (total_unique + hardlink_bytes) u64MAX` (hence never above `u64::MAX`),
and the worker's unique-sum accumulation of a file clamps the same way. -/
theorem c4_saturation_amended (state : AppStateM) (compute : SizeComputeState)
    (dir : Nat) (localRes : DirLocalResult) (ctx : WorkerCtx) (cancel : Bool)
    (hf : compute.finished dir = false)
    (hl : compute.local_done dir = some localRes)
    (hp : (compute.pending_children dir).getD 0 = 0) :
    readyTotalUnique compute dir localRes =
      min (localRes.unique_sum + (compute.children_unique dir).getD 0) u64MAX ∧
    hardlinkBytes (readyMerged compute dir localRes) =
      (readyMerged compute dir localRes).valuesSum % u64SIZE ∧
    (finalizeStep (state, compute) dir).1.dir_sizes dir =
      some (min (readyTotalUnique compute dir localRes +
        hardlinkBytes (readyMerged compute dir localRes)) u64MAX) ∧
    (∀ tv, (finalizeStep (state, compute) dir).1.dir_sizes dir = some tv → tv ≤ u64MAX) ∧
    (∀ us im msgs path m, m.nlink ≤ 1 →
      (workerStep ctx cancel (us, im, msgs) (.fileE path (some m))).1 =
        min (us + m.size) u64MAX) := by
  have hpub : (finalizeStep (state, compute) dir).1.dir_sizes dir =
      some (readyTotal compute dir localRes) := by
    rw [finalizeStep_of_ready hf hl hp, finalizeReady_fst]
    simp [upd_same]
  refine ⟨rfl, hardlinkBytes_eq_mod _, ?_, ?_, ?_⟩
  · rw [hpub]; rfl
  · intro tv htv
    rw [hpub] at htv
    injection htv with h1
    rw [← h1]
    exact satAdd_le_max _ _
  · intro us im msgs path m hm
    by_cases hdedup : ctx.dedup_hard_links
    · simp [workerStep, classify_file, hdedup, hm, satAdd]
    · simp only [Bool.not_eq_true] at hdedup
      simp [workerStep, classify_file, hdedup, satAdd]

/-- Witness for the amended C4 at the overflowing fixture. -/
theorem c4_witness :
    (exComputeWrap.finished 0 = false ∧
     exComputeWrap.local_done 0 = some ⟨0, [((0, 0), u64MAX), ((0, 1), u64MAX)]⟩ ∧
     (exComputeWrap.pending_children 0).getD 0 = 0) ∧
    hardlinkBytes (readyMerged exComputeWrap 0 ⟨0, [((0, 0), u64MAX), ((0, 1), u64MAX)]⟩) =
      (readyMerged exComputeWrap 0 ⟨0, [((0, 0), u64MAX), ((0, 1), u64MAX)]⟩).valuesSum % u64SIZE :=
  ⟨⟨by decide, by decide, by decide⟩,
   (c4_saturation_amended exState exComputeWrap 0 ⟨0, [((0, 0), u64MAX), ((0, 1), u64MAX)]⟩
     (WorkerCtx.mk [] true false 0) false (by decide) (by decide) (by decide)).2.1⟩

-- ───────────────────────── claim C3: monotonicity machinery ─────────────

theorem InodeMap.find_mergeInto_isSome (base other : InodeMap) (k : InodeKey) :
    ((base.mergeInto other).find k).isSome ↔
      (base.find k).isSome ∨ (other.find k).isSome := by
  rw [InodeMap.find_mergeInto]
  cases base.find k <;> cases other.find k <;> simp [Option.orElse]

/-- Consistency, key distinctness and key containment descend to the merge
the cascade performs, and the merge's key set contains both operands'. -/
theorem readyMerged_props {v : InodeKey → Nat} {K : Finset InodeKey}
    (compute : SizeComputeState) (dir : Nat) (localRes : DirLocalResult)
    (hc1 : localRes.hardlinks.ConsistentWith v) (hn1 : localRes.hardlinks.NodupKeys)
    (hk1 : ∀ k, (localRes.hardlinks.find k).isSome → k ∈ K)
    (hc2 : ((compute.children_hardlinks dir).getD []).ConsistentWith v)
    (hn2 : ((compute.children_hardlinks dir).getD []).NodupKeys)
    (hk2 : ∀ k, (((compute.children_hardlinks dir).getD []).find k).isSome → k ∈ K) :
    (readyMerged compute dir localRes).ConsistentWith v ∧
    (readyMerged compute dir localRes).NodupKeys ∧
    (∀ k, ((readyMerged compute dir localRes).find k).isSome → k ∈ K) ∧
    (∀ k, (((compute.children_hardlinks dir).getD []).find k).isSome →
        ((readyMerged compute dir localRes).find k).isSome) ∧
    (∀ k, (localRes.hardlinks.find k).isSome →
        ((readyMerged compute dir localRes).find k).isSome) := by
  unfold readyMerged
  by_cases hlen : ((compute.children_hardlinks dir).getD []).length ≤ localRes.hardlinks.length
  · rw [if_pos hlen]
    refine ⟨InodeMap.consistentWith_mergeInto hc1 hc2, InodeMap.nodupKeys_mergeInto hn1 _, ?_, ?_, ?_⟩
    · intro k hk
      rcases (InodeMap.find_mergeInto_isSome _ _ k).mp hk with h | h
      · exact hk1 k h
      · exact hk2 k h
    · intro k hk
      exact (InodeMap.find_mergeInto_isSome _ _ k).mpr (Or.inr hk)
    · intro k hk
      exact (InodeMap.find_mergeInto_isSome _ _ k).mpr (Or.inl hk)
  · rw [if_neg hlen]
    refine ⟨InodeMap.consistentWith_mergeInto hc2 hc1, InodeMap.nodupKeys_mergeInto hn2 _, ?_, ?_, ?_⟩
    · intro k hk
      rcases (InodeMap.find_mergeInto_isSome _ _ k).mp hk with h | h
      · exact hk2 k h
      · exact hk1 k h
    · intro k hk
      exact (InodeMap.find_mergeInto_isSome _ _ k).mpr (Or.inl hk)
    · intro k hk
      exact (InodeMap.find_mergeInto_isSome _ _ k).mpr (Or.inr hk)

/-- A consistent map with distinct keys drawn from `K` sums to at most the
total hard-link bytes of `K`. -/
theorem valuesSum_le_global {v : InodeKey → Nat} {K : Finset InodeKey} {m : InodeMap}
    (hc : m.ConsistentWith v) (hn : m.NodupKeys)
    (hk : ∀ k, (m.find k).isSome → k ∈ K) :
    m.valuesSum ≤ ∑ k ∈ K, v k := by
  rw [InodeMap.valuesSum_eq_keys_sum hc hn]
  apply Finset.sum_le_sum_of_subset
  intro k hkmem
  rw [List.mem_toFinset, ← InodeMap.find_isSome_iff_mem] at hkmem
  exact hk k hkmem

/-- The head of the remaining list is ready under the cascade invariant. -/
theorem head_ready_of_inv {par : Nat → Option (Option Nat)} {L done t : List Nat}
    {h : Nat} {st : AppStateM} {c : SizeComputeState}
    (hpl : ParentsLater par L) (hnd : L.Nodup) (hdec : L = done ++ h :: t)
    (hci : CascadeInv par done (h :: t) (st, c)) :
    c.finished h = false ∧
    (∃ r, c.local_done h = some r) ∧
    (c.pending_children h).getD 0 = 0 := by
  obtain ⟨hpar, hloc, hpend, hfin, -⟩ := hci
  refine ⟨hfin h (by simp), Option.isSome_iff_exists.mp (hloc h (by simp)), ?_⟩
  have hcc : childCount par (h :: t) h = 0 := by
    rw [childCount_cons]
    have h1 : childCount par t h = 0 := by
      unfold childCount
      rw [List.countP_eq_zero]
      intro e he
      simp only [beq_iff_eq]
      exact fun hpe => no_child_in_suffix hpl hnd hdec he hpe
    have h2 : ¬ par h = some (some h) := by
      intro hph
      exact (parent_position hpl hnd hdec hph).2.2 rfl
    simp [h1, h2]
  rw [hpend h (by simp), hcc]
  rfl

/-- Monotonicity invariant of the cascade pass on a consistent filesystem
(`v` assigns each inode its apparent size, `K` is the universe of hard-link
keys, whose total byte count stays below `2^64`): every stored hard-link map
is consistent, has distinct keys drawn from `K`; children accumulators are
present for unprocessed dirs, `children_unique` stays a u64; a finalised
child whose parent is still pending is bounded by the parent's accumulators;
and for both-finalised child/parent pairs the published totals are
monotone. -/
def MonoInv (v : InodeKey → Nat) (K : Finset InodeKey)
    (par : Nat → Option (Option Nat)) (done todo : List Nat)
    (s : AppStateM × SizeComputeState) : Prop :=
  (∀ d r, s.2.local_done d = some r →
      r.unique_sum ≤ u64MAX ∧ r.hardlinks.ConsistentWith v ∧ r.hardlinks.NodupKeys ∧
      ∀ k, (r.hardlinks.find k).isSome → k ∈ K) ∧
  (∀ d ∈ todo, ∃ cu, s.2.children_unique d = some cu ∧ cu ≤ u64MAX) ∧
  (∀ d ∈ todo, ∃ m, s.2.children_hardlinks d = some m ∧ m.ConsistentWith v ∧
      m.NodupKeys ∧ ∀ k, (m.find k).isSome → k ∈ K) ∧
  (∀ a ∈ done, ∀ p, par a = some (some p) → p ∉ done →
      ∃ ta, s.1.dir_sizes a = some ta ∧
        ∀ cu m, s.2.children_unique p = some cu → s.2.children_hardlinks p = some m →
          ta ≤ satAdd cu m.valuesSum) ∧
  (∀ a ∈ done, ∀ p, par a = some (some p) → p ∈ done →
      ∃ ta tp, s.1.dir_sizes a = some ta ∧ s.1.dir_sizes p = some tp ∧ ta ≤ tp)

/-- One cascade iteration preserves the monotonicity invariant. -/
theorem monoInv_step {v : InodeKey → Nat} {K : Finset InodeKey}
    {par : Nat → Option (Option Nat)} {L done t : List Nat} {h : Nat}
    {st : AppStateM} {c : SizeComputeState}
    (HK : ∑ k ∈ K, v k < u64SIZE)
    (hpl : ParentsLater par L) (hnd : L.Nodup) (hdec : L = done ++ h :: t)
    (hci : CascadeInv par done (h :: t) (st, c))
    (hmi : MonoInv v K par done (h :: t) (st, c)) :
    MonoInv v K par (done ++ [h]) t (finalizeStep (st, c) h) := by
  obtain ⟨hfh, ⟨r, hr⟩, hph⟩ := head_ready_of_inv hpl hnd hdec hci
  obtain ⟨hloc, hcu, hch, hM3, hM4⟩ := hmi
  have hparc : c.parent_dir = par := hci.1
  have hnd' : (done ++ h :: t).Nodup := hdec ▸ hnd
  have hht : h ∉ t := by
    have h2 := (List.nodup_append.mp hnd').2.1
    exact (List.nodup_cons.mp h2).1
  have hhdone : h ∉ done := fun hin => List.disjoint_of_nodup_append hnd' hin (by simp)
  obtain ⟨hru, hrc, hrn, hrk⟩ := hloc h r hr
  obtain ⟨cuh, hcuh, hcuhle⟩ := hcu h (by simp)
  obtain ⟨mh, hmh, hmhc, hmhn, hmhk⟩ := hch h (by simp)
  have hmhD : (c.children_hardlinks h).getD [] = mh := by
    show (c.children_hardlinks h).getD [] = mh
    have : c.children_hardlinks h = some mh := hmh
    rw [this]
    rfl
  have hc2 : ((c.children_hardlinks h).getD []).ConsistentWith v := by rw [hmhD]; exact hmhc
  have hn2 : ((c.children_hardlinks h).getD []).NodupKeys := by rw [hmhD]; exact hmhn
  have hk2 : ∀ k, (((c.children_hardlinks h).getD []).find k).isSome → k ∈ K := by
    rw [hmhD]; exact hmhk
  obtain ⟨hMc, hMn, hMk, hMsupC, hMsupL⟩ := readyMerged_props c h r hrc hrn hrk hc2 hn2 hk2
  have hvs : (readyMerged c h r).valuesSum < u64SIZE :=
    lt_of_le_of_lt (valuesSum_le_global hMc hMn hMk) HK
  have hbeq : hardlinkBytes (readyMerged c h r) = (readyMerged c h r).valuesSum :=
    hardlinkBytes_of_lt hvs
  have htu_le : readyTotalUnique c h r ≤ u64MAX := satAdd_le_max _ _
  have htuD : readyTotalUnique c h r = satAdd r.unique_sum cuh := by
    unfold readyTotalUnique
    have : c.children_unique h = some cuh := hcuh
    rw [this]
    rfl
  rw [finalizeStep_of_ready hfh hr hph]
  have hds : ∀ x, (finalizeReady st c h r).1.dir_sizes x =
      upd st.dir_sizes h (some (readyTotal c h r)) x := fun x => by
    rw [finalizeReady_fst]
  -- the two shapes of the parent-accumulator update
  have hcu_untouched : ∀ x, x ≠ h →
      (∀ q, ¬ par h = some (some q)) ∨ (∃ q, par h = some (some q) ∧ x ≠ q) →
      (finalizeReady st c h r).2.children_unique x = c.children_unique x := by
    intro x hxh hcase
    rw [finalizeReady_children_unique, hparc]
    rcases hcase with hnone | ⟨q, hq, hxq⟩
    · cases hparh : par h with
      | none => exact upd_other _ _ _ hxh
      | some qq =>
        cases qq with
        | none => exact upd_other _ _ _ hxh
        | some q => exact absurd hparh (hnone q)
    · rw [hq]
      simp only [if_neg hxq]
      exact upd_other _ _ _ hxh
  have hch_untouched : ∀ x, x ≠ h →
      (∀ q, ¬ par h = some (some q)) ∨ (∃ q, par h = some (some q) ∧ x ≠ q) →
      (finalizeReady st c h r).2.children_hardlinks x = c.children_hardlinks x := by
    intro x hxh hcase
    rw [finalizeReady_children_hardlinks, hparc]
    rcases hcase with hnone | ⟨q, hq, hxq⟩
    · cases hparh : par h with
      | none => exact upd_other _ _ _ hxh
      | some qq =>
        cases qq with
        | none => exact upd_other _ _ _ hxh
        | some q => exact absurd hparh (hnone q)
    · rw [hq]
      simp only [if_neg hxq]
      exact upd_other _ _ _ hxh
  refine ⟨?_, ?_, ?_, ?_, ?_⟩
  -- 1. stored local results untouched (only removed)
  · intro d r' hd
    rw [finalizeReady_local_done] at hd
    by_cases hdh : d = h
    · rw [hdh, upd_same] at hd
      exact absurd hd (by simp)
    · rw [upd_other _ _ _ hdh] at hd
      exact hloc d r' hd
  -- 2. children_unique present and bounded on the remaining dirs
  · intro d hd
    have hdh : d ≠ h := fun hx => hht (hx ▸ hd)
    cases hparh : par h with
    | none =>
      obtain ⟨cud, hcud, hle⟩ := hcu d (List.mem_cons_of_mem _ hd)
      refine ⟨cud, ?_, hle⟩
      rw [hcu_untouched d hdh (Or.inl (by simp [hparh]))]
      exact hcud
    | some q =>
      cases q with
      | none =>
        obtain ⟨cud, hcud, hle⟩ := hcu d (List.mem_cons_of_mem _ hd)
        refine ⟨cud, ?_, hle⟩
        rw [hcu_untouched d hdh (Or.inl (by simp [hparh]))]
        exact hcud
      | some p =>
        have hpos := parent_position hpl hnd hdec hparh
        have hpneh : p ≠ h := hpos.2.2
        obtain ⟨cup, hcup, hcuple⟩ := hcu p (List.mem_cons_of_mem _ hpos.1)
        have hupd : (upd c.children_unique h none) p = some cup := by
          rw [upd_other _ _ _ hpneh]
          exact hcup
        by_cases hdp : d = p
        · subst hdp
          refine ⟨satAdd cup (readyTotalUnique c h r), ?_, satAdd_le_max _ _⟩
          rw [finalizeReady_children_unique, hparc]
          simp [hparh, hupd]
        · obtain ⟨cud, hcud, hle⟩ := hcu d (List.mem_cons_of_mem _ hd)
          refine ⟨cud, ?_, hle⟩
          rw [hcu_untouched d hdh (Or.inr ⟨p, hparh, hdp⟩)]
          exact hcud
  -- 3. children_hardlinks present and well-formed on the remaining dirs
  · intro d hd
    have hdh : d ≠ h := fun hx => hht (hx ▸ hd)
    cases hparh : par h with
    | none =>
      obtain ⟨md, hmd, hprops⟩ := hch d (List.mem_cons_of_mem _ hd)
      refine ⟨md, ?_, hprops⟩
      rw [hch_untouched d hdh (Or.inl (by simp [hparh]))]
      exact hmd
    | some q =>
      cases q with
      | none =>
        obtain ⟨md, hmd, hprops⟩ := hch d (List.mem_cons_of_mem _ hd)
        refine ⟨md, ?_, hprops⟩
        rw [hch_untouched d hdh (Or.inl (by simp [hparh]))]
        exact hmd
      | some p =>
        have hpos := parent_position hpl hnd hdec hparh
        have hpneh : p ≠ h := hpos.2.2
        obtain ⟨mp, hmp, hmpc, hmpn, hmpk⟩ := hch p (List.mem_cons_of_mem _ hpos.1)
        have hupdh : (upd c.children_hardlinks h none) p = some mp := by
          rw [upd_other _ _ _ hpneh]
          exact hmp
        by_cases hdp : d = p
        · subst hdp
          refine ⟨(if mp.isEmpty then readyMerged c h r else mp.mergeInto (readyMerged c h r)),
            ?_, ?_, ?_, ?_⟩
          · rw [finalizeReady_children_hardlinks, hparc]
            simp [hparh, hupdh]
          · by_cases hemp : mp.isEmpty
            · rw [if_pos hemp]; exact hMc
            · rw [if_neg hemp]; exact InodeMap.consistentWith_mergeInto hmpc hMc
          · by_cases hemp : mp.isEmpty
            · rw [if_pos hemp]; exact hMn
            · rw [if_neg hemp]; exact InodeMap.nodupKeys_mergeInto hmpn _
          · intro k hk
            by_cases hemp : mp.isEmpty
            · rw [if_pos hemp] at hk; exact hMk k hk
            · rw [if_neg hemp] at hk
              rcases (InodeMap.find_mergeInto_isSome _ _ k).mp hk with hx | hx
              · exact hmpk k hx
              · exact hMk k hx
        · obtain ⟨md, hmd, hprops⟩ := hch d (List.mem_cons_of_mem _ hd)
          refine ⟨md, ?_, hprops⟩
          rw [hch_untouched d hdh (Or.inr ⟨p, hparh, hdp⟩)]
          exact hmd
  -- 4. finalised children with still-pending parents are bounded by the
  --    parent's accumulators
  · intro a ha p hpa hpnew
    have hpne_h : p ≠ h := fun hx => hpnew (by simp [hx])
    have hpnotdone : p ∉ done := fun hx => hpnew (by simp [hx])
    rcases List.mem_append.mp ha with hadone | hah
    · -- an old entry: the parent accumulators can only have grown
      have hane_h : a ≠ h := fun hx => hhdone (hx ▸ hadone)
      obtain ⟨ta, hta, hbound⟩ := hM3 a hadone p hpa hpnotdone
      refine ⟨ta, ?_, ?_⟩
      · rw [hds a, upd_other _ _ _ hane_h]
        exact hta
      · intro cu' m' hcu' hm'
        cases hparh : par h with
        | none =>
          rw [hcu_untouched p hpne_h (Or.inl (by simp [hparh]))] at hcu'
          rw [hch_untouched p hpne_h (Or.inl (by simp [hparh]))] at hm'
          exact hbound cu' m' hcu' hm'
        | some q =>
          cases q with
          | none =>
            rw [hcu_untouched p hpne_h (Or.inl (by simp [hparh]))] at hcu'
            rw [hch_untouched p hpne_h (Or.inl (by simp [hparh]))] at hm'
            exact hbound cu' m' hcu' hm'
          | some pq =>
            have hpos := parent_position hpl hnd hdec hparh
            have hpqneh : pq ≠ h := hpos.2.2
            obtain ⟨cup, hcup, hcuple⟩ := hcu pq (List.mem_cons_of_mem _ hpos.1)
            obtain ⟨mp, hmp, hmpc, hmpn, hmpk⟩ := hch pq (List.mem_cons_of_mem _ hpos.1)
            have hupd : (upd c.children_unique h none) pq = some cup := by
              rw [upd_other _ _ _ hpqneh]
              exact hcup
            have hupdh : (upd c.children_hardlinks h none) pq = some mp := by
              rw [upd_other _ _ _ hpqneh]
              exact hmp
            by_cases hppq : p = pq
            · subst hppq
              have hvalc : (finalizeReady st c h r).2.children_unique p =
                  some (satAdd cup (readyTotalUnique c h r)) := by
                rw [finalizeReady_children_unique, hparc]
                simp [hparh, hupd]
              have hvalm : (finalizeReady st c h r).2.children_hardlinks p =
                  some (if mp.isEmpty then readyMerged c h r
                        else mp.mergeInto (readyMerged c h r)) := by
                rw [finalizeReady_children_hardlinks, hparc]
                simp [hparh, hupdh]
              rw [hvalc] at hcu'
              rw [hvalm] at hm'
              injection hcu' with hcu'
              injection hm' with hm'
              have hchain := hbound cup mp hcup hmp
              refine le_trans hchain (satAdd_mono ?_ ?_)
              · rw [← hcu']
                exact le_satAdd_right _ hcuple
              · rw [← hm']
                by_cases hemp : mp.isEmpty
                · rw [if_pos hemp]
                  have hmpnil : mp = [] := by
                    cases mp with
                    | nil => rfl
                    | cons x xs => simp [List.isEmpty] at hemp
                  rw [hmpnil]
                  exact Nat.zero_le _
                · rw [if_neg hemp]
                  apply InodeMap.valuesSum_le_of_keys_subset hmpc hmpn
                    (InodeMap.consistentWith_mergeInto hmpc hMc)
                    (InodeMap.nodupKeys_mergeInto hmpn _)
                  intro k hk
                  exact (InodeMap.find_mergeInto_isSome _ _ k).mpr (Or.inl hk)
            · rw [hcu_untouched p hpne_h (Or.inr ⟨pq, hparh, hppq⟩)] at hcu'
              rw [hch_untouched p hpne_h (Or.inr ⟨pq, hparh, hppq⟩)] at hm'
              exact hbound cu' m' hcu' hm'
    · -- the freshly finalised head: bounded by its parent's new accumulators
      simp only [List.mem_singleton] at hah
      subst hah
      have hpos := parent_position hpl hnd hdec hpa
      obtain ⟨cup, hcup, hcuple⟩ := hcu p (List.mem_cons_of_mem _ hpos.1)
      obtain ⟨mp, hmp, hmpc, hmpn, hmpk⟩ := hch p (List.mem_cons_of_mem _ hpos.1)
      refine ⟨readyTotal c a r, ?_, ?_⟩
      · rw [hds a, upd_same]
      · intro cu' m' hcu' hm'
        have hupd : (upd c.children_unique a none) p = some cup := by
          rw [upd_other _ _ _ hpos.2.2]
          exact hcup
        have hupdh : (upd c.children_hardlinks a none) p = some mp := by
          rw [upd_other _ _ _ hpos.2.2]
          exact hmp
        have hvalc : (finalizeReady st c a r).2.children_unique p =
            some (satAdd cup (readyTotalUnique c a r)) := by
          rw [finalizeReady_children_unique, hparc]
          simp [hpa, hupd]
        have hvalm : (finalizeReady st c a r).2.children_hardlinks p =
            some (if mp.isEmpty then readyMerged c a r
                  else mp.mergeInto (readyMerged c a r)) := by
          rw [finalizeReady_children_hardlinks, hparc]
          simp [hpa, hupdh]
        rw [hvalc] at hcu'
        rw [hvalm] at hm'
        injection hcu' with hcu'
        injection hm' with hm'
        unfold readyTotal
        rw [hbeq]
        apply satAdd_mono
        · rw [← hcu']
          exact le_satAdd_left _ htu_le
        · rw [← hm']
          by_cases hemp : mp.isEmpty
          · rw [if_pos hemp]
          · rw [if_neg hemp]
            apply InodeMap.valuesSum_le_of_keys_subset hMc hMn
              (InodeMap.consistentWith_mergeInto hmpc hMc)
              (InodeMap.nodupKeys_mergeInto hmpn _)
            intro k hk
            exact (InodeMap.find_mergeInto_isSome _ _ k).mpr (Or.inr hk)
  -- 5. both-finalised pairs stay monotone; pairs completed by the head obey
  --    the accumulated bound
  · intro a ha p hpa hpdone
    rcases List.mem_append.mp ha with hadone | hah
    · have hane_h : a ≠ h := fun hx => hhdone (hx ▸ hadone)
      rcases List.mem_append.mp hpdone with hpdone' | hph'
      · have hpne_h : p ≠ h := fun hx => hhdone (hx ▸ hpdone')
        obtain ⟨ta, tp, hta, htp, hle⟩ := hM4 a hadone p hpa hpdone'
        refine ⟨ta, tp, ?_, ?_, hle⟩
        · rw [hds a, upd_other _ _ _ hane_h]; exact hta
        · rw [hds p, upd_other _ _ _ hpne_h]; exact htp
      · simp only [List.mem_singleton] at hph'
        subst hph'
        obtain ⟨ta, hta, hbound⟩ := hM3 a hadone p hpa hhdone
        refine ⟨ta, readyTotal c p r, ?_, ?_, ?_⟩
        · rw [hds a, upd_other _ _ _ hane_h]; exact hta
        · rw [hds p, upd_same]
        · have hchain := hbound cuh mh hcuh hmh
          refine le_trans hchain ?_
          unfold readyTotal
          rw [hbeq]
          apply satAdd_mono
          · rw [htuD]
            exact le_satAdd_left _ hcuhle
          · apply InodeMap.valuesSum_le_of_keys_subset hmhc hmhn hMc hMn
            intro k hk
            apply hMsupC
            rw [hmhD]
            exact hk
    · simp only [List.mem_singleton] at hah
      subst hah
      exfalso
      have hpos := parent_position hpl hnd hdec hpa
      rcases List.mem_append.mp hpdone with hpdone' | hph'
      · exact hpos.2.1 hpdone'
      · simp only [List.mem_singleton] at hph'
        exact hpos.2.2 hph'

/-- Both invariants propagate along any prefix of the pass. -/
theorem cascadeMonoInv_prefix {v : InodeKey → Nat} {K : Finset InodeKey}
    {par : Nat → Option (Option Nat)} {L : List Nat}
    (HK : ∑ k ∈ K, v k < u64SIZE)
    (hpl : ParentsLater par L) (hnd : L.Nodup) :
    ∀ (todo₁ todo₂ done : List Nat) (s : AppStateM × SizeComputeState),
      L = done ++ todo₁ ++ todo₂ →
      CascadeInv par done (todo₁ ++ todo₂) s →
      MonoInv v K par done (todo₁ ++ todo₂) s →
      CascadeInv par (done ++ todo₁) todo₂ (todo₁.foldl finalizeStep s) ∧
      MonoInv v K par (done ++ todo₁) todo₂ (todo₁.foldl finalizeStep s) := by
  intro todo₁
  induction todo₁ with
  | nil =>
    intro todo₂ done s hdec hci hmi
    constructor
    · simpa using hci
    · simpa using hmi
  | cons h t ih =>
    intro todo₂ done s hdec hci hmi
    rcases s with ⟨st, c⟩
    have hdec' : L = done ++ h :: (t ++ todo₂) := by rw [hdec]; simp
    have hstepC := cascadeInv_step hpl hnd hdec' (by simpa using hci)
    have hstepM := monoInv_step HK hpl hnd hdec' (by simpa using hci) (by simpa using hmi)
    have hdec2 : L = (done ++ [h]) ++ t ++ todo₂ := by rw [hdec]; simp
    have := ih todo₂ (done ++ [h]) (finalizeStep (st, c) h) hdec2 hstepC hstepM
    constructor
    · have h1 := this.1
      simpa [List.append_assoc] using h1
    · have h2 := this.2
      simpa [List.append_assoc] using h2

-- ───────────────────────── claim C3 ─────────────

/-- Fixture violating conservation through u64 overflow: child `1` holds one
hard-linked inode of `u64::MAX` bytes, parent `0` holds a second, distinct
inode of `u64::MAX` bytes.  The child total saturates at `u64::MAX`, but the
parent's merged hard-link sum wraps modulo `2^64` to `u64::MAX - 1`. -/
def exComputeOverflow : SizeComputeState where
  generation := 1
  remaining_workers := 0
  dirs := [1, 0]
  parent_dir := exParent
  pending_children := fun p => if p = 1 then some 0 else if p = 0 then some 1 else none
  children_unique := fun p => if p ≤ 1 then some 0 else none
  children_hardlinks := fun p => if p ≤ 1 then some [] else none
  local_done := fun p =>
    if p = 1 then some ⟨0, [((0, 0), u64MAX)]⟩
    else if p = 0 then some ⟨0, [((0, 1), u64MAX)]⟩ else none
  finished := fun _ => false
  cancel := false

/-- Counterexample to C3 as stated: after one full cascade pass over
`exComputeOverflow`, the child directory `1` of parent `0` is published with
`u64::MAX` bytes but the parent with only `u64::MAX - 1` bytes (its
hard-link byte sum wrapped), so `dir_sizes[parent] ≥ dir_sizes[child]`
fails. -/
theorem c3_counterexample :
    exComputeOverflow.parent_dir 1 = some (some 0) ∧
    (finalize_ready_dirs exState exComputeOverflow).1.dir_sizes 1 = some u64MAX ∧
    (finalize_ready_dirs exState exComputeOverflow).1.dir_sizes 0 = some (u64MAX - 1) ∧
    ¬ u64MAX ≤ u64MAX - 1 := by
  refine ⟨by decide, ?_, ?_, by decide⟩ <;> decide

/-- C3 amended: conservation holds on a consistent filesystem snapshot
without hard-link overflow.  If every hard-link entry everywhere agrees with
one global inode-size assignment `v` over a key universe `K` whose total
byte count is below `2^64` (ruling out the wrap of the unsaturated hard-link
byte sum exhibited by the counterexample), then after a full deepest-first
cascade pass every tree directory's published total is at least each of its
tree children's. -/
theorem c3_conservation_amended (state : AppStateM) (compute : SizeComputeState)
    (dp : Nat → Nat) (v : InodeKey → Nat) (K : Finset InodeKey)
    (HK : ∑ k ∈ K, v k < u64SIZE)
    (hsort : compute.dirs.Pairwise (fun a b => dp b ≤ dp a))
    (hdepth : ∀ e p, e ∈ compute.dirs → compute.parent_dir e = some (some p) →
        p ∈ compute.dirs ∧ dp p < dp e)
    (hnd : compute.dirs.Nodup)
    (hloc : ∀ d ∈ compute.dirs, (compute.local_done d).isSome)
    (hpend : ∀ d ∈ compute.dirs, compute.pending_children d =
        some (childCount compute.parent_dir compute.dirs d))
    (hfin : ∀ d, compute.finished d = false)
    (hlocp : ∀ d r, compute.local_done d = some r →
        r.unique_sum ≤ u64MAX ∧ r.hardlinks.ConsistentWith v ∧ r.hardlinks.NodupKeys ∧
        ∀ k, (r.hardlinks.find k).isSome → k ∈ K)
    (hcu0 : ∀ d ∈ compute.dirs, compute.children_unique d = some 0)
    (hch0 : ∀ d ∈ compute.dirs, compute.children_hardlinks d = some []) :
    ∀ a ∈ compute.dirs, ∀ p, compute.parent_dir a = some (some p) →
      ∃ ta tp, (finalize_ready_dirs state compute).1.dir_sizes a = some ta ∧
               (finalize_ready_dirs state compute).1.dir_sizes p = some tp ∧ ta ≤ tp := by
  have hpl := parentsLater_of_sorted compute.parent_dir dp compute.dirs hsort hdepth
  have hci0 : CascadeInv compute.parent_dir [] compute.dirs (state, compute) :=
    ⟨rfl, hloc, hpend, fun d _ => hfin d, by simp⟩
  have hmi0 : MonoInv v K compute.parent_dir [] compute.dirs (state, compute) := by
    refine ⟨hlocp, ?_, ?_, by simp, by simp⟩
    · intro d hd
      exact ⟨0, hcu0 d hd, by decide⟩
    · intro d hd
      refine ⟨[], hch0 d hd, ?_, ?_, ?_⟩
      · intro kv hkv; simp at hkv
      · simp [InodeMap.NodupKeys]
      · intro k hk; simp [InodeMap.find] at hk
  obtain ⟨-, hmiF⟩ := cascadeMonoInv_prefix HK hpl hnd compute.dirs [] [] (state, compute)
    (by simp) (by simpa using hci0) (by simpa using hmi0)
  intro a ha p hpa
  exact hmiF.2.2.2.2 a (by simpa using ha) p hpa
    (by simpa using (hdepth a p ha hpa).1)

/-- Witness for the amended C3 at the two-directory fixture, with the inode
assignment `v = {(0,5) ↦ 7}` on the key universe `{(0,5)}`. -/
theorem c3_witness :
    ((∑ k ∈ ({((0 : Nat), (5 : Nat))} : Finset InodeKey),
        (fun k => if k = ((0 : Nat), (5 : Nat)) then 7 else 0) k) < u64SIZE ∧
     exCompute.dirs.Pairwise
        (fun a b => (if b = 1 then 1 else 0) ≤ (if a = 1 then 1 else 0)) ∧
     exCompute.dirs.Nodup ∧
     (∀ d ∈ exCompute.dirs, (exCompute.local_done d).isSome) ∧
     (∀ d ∈ exCompute.dirs, exCompute.pending_children d =
        some (childCount exCompute.parent_dir exCompute.dirs d)) ∧
     (∀ d ∈ exCompute.dirs, exCompute.children_unique d = some 0) ∧
     (∀ d ∈ exCompute.dirs, exCompute.children_hardlinks d = some [])) ∧
    (∀ a ∈ exCompute.dirs, ∀ p, exCompute.parent_dir a = some (some p) →
      ∃ ta tp, (finalize_ready_dirs exState exCompute).1.dir_sizes a = some ta ∧
               (finalize_ready_dirs exState exCompute).1.dir_sizes p = some tp ∧
               ta ≤ tp) := by
  have hdepth : ∀ e p, e ∈ exCompute.dirs → exCompute.parent_dir e = some (some p) →
      p ∈ exCompute.dirs ∧ (if p = 1 then 1 else 0) < (if e = 1 then 1 else 0) := by
    intro e p he hp
    rcases List.mem_cons.mp he with h1 | h2
    · subst h1
      have : p = 0 := by simpa [exCompute, exParent, eq_comm] using hp
      subst this
      exact ⟨by decide, by decide⟩
    · exfalso
      rcases List.mem_cons.mp h2 with h3 | h3
      · subst h3; simp [exCompute, exParent] at hp
      · simp [exCompute] at h3
  have hlocp : ∀ d r, exCompute.local_done d = some r →
      r.unique_sum ≤ u64MAX ∧
      r.hardlinks.ConsistentWith (fun k => if k = ((0 : Nat), (5 : Nat)) then 7 else 0) ∧
      r.hardlinks.NodupKeys ∧
      ∀ k, (r.hardlinks.find k).isSome →
        k ∈ ({((0 : Nat), (5 : Nat))} : Finset InodeKey) := by
    intro d r hr
    by_cases h1 : d = 1
    · subst h1
      have hrv : r = ⟨100, [((0, 5), 7)]⟩ := by
        have h2 := hr
        simp [exCompute] at h2
        exact h2.symm
      subst hrv
      refine ⟨by decide, by decide, by decide, ?_⟩
      intro k hk
      by_cases hky : ((0, 5) : InodeKey) = k
      · simp [← hky]
      · simp [InodeMap.find, hky] at hk
    · by_cases h0 : d = 0
      · subst h0
        have hrv : r = ⟨50, []⟩ := by
          have h2 := hr
          simp [exCompute] at h2
          exact h2.symm
        subst hrv
        refine ⟨by decide, by decide, by decide, ?_⟩
        intro k hk
        simp [InodeMap.find] at hk
      · exfalso
        simp [exCompute, h1, h0] at hr
  refine ⟨⟨by decide, by decide, by decide, by decide, by decide, by decide, by decide⟩, ?_⟩
  exact c3_conservation_amended exState exCompute (fun p => if p = 1 then 1 else 0)
    (fun k => if k = ((0 : Nat), (5 : Nat)) then 7 else 0)
    ({((0 : Nat), (5 : Nat))} : Finset InodeKey)
    (by decide) (by decide) hdepth (by decide) (by decide) (by decide)
    (fun d => rfl) hlocp (by decide) (by decide)

-- ───────────────────────── claim C6: start seeding and restart ─────────────

/-- The paths of the tree's directory nodes, in tree order: the directories
`start_size_computation`'s node loop registers. -/
def dirPathsOf (nodes : List TreeNodeM) : List Nat :=
  (nodes.filter fun n => n.is_dir).map TreeNodeM.path

theorem startStep_dirs (nodes0 : List TreeNodeM) (cache : Nat → Option DirLocalResult)
    (acc : StartAcc) (node : TreeNodeM) :
    (startStep nodes0 cache acc node).dirs =
      if node.is_dir = true then acc.dirs ++ [node.path] else acc.dirs := by
  cases hdir : node.is_dir with
  | false => simp [startStep, hdir]
  | true => cases hc : cache node.path <;> simp [startStep, hdir, hc]

theorem startStep_dir_depth (nodes0 : List TreeNodeM) (cache : Nat → Option DirLocalResult)
    (acc : StartAcc) (node : TreeNodeM) :
    (startStep nodes0 cache acc node).dir_depth =
      if node.is_dir = true then upd acc.dir_depth node.path (some node.depth)
      else acc.dir_depth := by
  cases hdir : node.is_dir with
  | false => simp [startStep, hdir]
  | true => cases hc : cache node.path <;> simp [startStep, hdir, hc]

theorem startStep_parent_dir (nodes0 : List TreeNodeM) (cache : Nat → Option DirLocalResult)
    (acc : StartAcc) (node : TreeNodeM) :
    (startStep nodes0 cache acc node).parent_dir =
      if node.is_dir = true then
        upd acc.parent_dir node.path (some (parentDirPath nodes0 node))
      else acc.parent_dir := by
  cases hdir : node.is_dir with
  | false => simp [startStep, hdir]
  | true => cases hc : cache node.path <;> simp [startStep, hdir, hc]

theorem startStep_pending_children (nodes0 : List TreeNodeM)
    (cache : Nat → Option DirLocalResult) (acc : StartAcc) (node : TreeNodeM) :
    (startStep nodes0 cache acc node).pending_children =
      if node.is_dir = true then
        upd acc.pending_children node.path (some (childDirCount nodes0 node))
      else acc.pending_children := by
  cases hdir : node.is_dir with
  | false => simp [startStep, hdir]
  | true => cases hc : cache node.path <;> simp [startStep, hdir, hc]

theorem startStep_children_unique (nodes0 : List TreeNodeM)
    (cache : Nat → Option DirLocalResult) (acc : StartAcc) (node : TreeNodeM) :
    (startStep nodes0 cache acc node).children_unique =
      if node.is_dir = true then upd acc.children_unique node.path (some 0)
      else acc.children_unique := by
  cases hdir : node.is_dir with
  | false => simp [startStep, hdir]
  | true => cases hc : cache node.path <;> simp [startStep, hdir, hc]

theorem startStep_children_hardlinks (nodes0 : List TreeNodeM)
    (cache : Nat → Option DirLocalResult) (acc : StartAcc) (node : TreeNodeM) :
    (startStep nodes0 cache acc node).children_hardlinks =
      if node.is_dir = true then
        upd acc.children_hardlinks node.path (some ([] : InodeMap))
      else acc.children_hardlinks := by
  cases hdir : node.is_dir with
  | false => simp [startStep, hdir]
  | true => cases hc : cache node.path <;> simp [startStep, hdir, hc]

theorem startStep_jobs (nodes0 : List TreeNodeM) (cache : Nat → Option DirLocalResult)
    (acc : StartAcc) (node : TreeNodeM) :
    (startStep nodes0 cache acc node).jobs =
      if node.is_dir = true ∧ cache node.path = none then acc.jobs ++ [node.path]
      else acc.jobs := by
  cases hdir : node.is_dir with
  | false => simp [startStep, hdir]
  | true => cases hc : cache node.path <;> simp [startStep, hdir, hc]

theorem startStep_local_done (nodes0 : List TreeNodeM)
    (cache : Nat → Option DirLocalResult) (acc : StartAcc) (node : TreeNodeM) (p : Nat) :
    (startStep nodes0 cache acc node).local_done p =
      if node.is_dir = true ∧ p = node.path ∧ (cache node.path).isSome then
        cache node.path
      else acc.local_done p := by
  cases hdir : node.is_dir with
  | false => simp [startStep, hdir]
  | true =>
    cases hc : cache node.path with
    | none => simp [startStep, hdir, hc]
    | some r =>
      by_cases hp : p = node.path
      · simp [startStep, hdir, hc, hp, upd]
      · simp [startStep, hdir, hc, hp, upd]

/-- The node loop appends every directory path to `dirs`, ignoring the cache. -/
theorem startFold_dirs (nodes0 : List TreeNodeM) (cache : Nat → Option DirLocalResult) :
    ∀ (l : List TreeNodeM) (acc : StartAcc),
      (l.foldl (startStep nodes0 cache) acc).dirs = acc.dirs ++ dirPathsOf l := by
  intro l
  induction l with
  | nil => intro acc; simp [dirPathsOf]
  | cons n t ih =>
    intro acc
    simp only [List.foldl_cons]
    rw [ih, startStep_dirs]
    cases hdir : n.is_dir with
    | false => simp [dirPathsOf, List.filter_cons, hdir]
    | true => simp [dirPathsOf, List.filter_cons, hdir]

/-- The node loop queues exactly the directory paths the cache misses, in
tree order. -/
theorem startFold_jobs (nodes0 : List TreeNodeM) (cache : Nat → Option DirLocalResult) :
    ∀ (l : List TreeNodeM) (acc : StartAcc),
      (l.foldl (startStep nodes0 cache) acc).jobs =
        acc.jobs ++ (dirPathsOf l).filter (fun p => (cache p).isNone) := by
  intro l
  induction l with
  | nil => intro acc; simp [dirPathsOf]
  | cons n t ih =>
    intro acc
    simp only [List.foldl_cons]
    rw [ih, startStep_jobs]
    cases hdir : n.is_dir with
    | false => simp [dirPathsOf, List.filter_cons, hdir]
    | true =>
      cases hc : cache n.path with
      | none => simp [dirPathsOf, List.filter_cons, hdir, hc]
      | some r => simp [dirPathsOf, List.filter_cons, hdir, hc]

/-- The node loop writes `local_done p` exactly when some directory node has
path `p` and the cache holds an entry for `p`, and the value written is the
cached entry. -/
theorem startFold_local_done (nodes0 : List TreeNodeM)
    (cache : Nat → Option DirLocalResult) :
    ∀ (l : List TreeNodeM) (acc : StartAcc) (p : Nat),
      (l.foldl (startStep nodes0 cache) acc).local_done p =
        if p ∈ dirPathsOf l ∧ (cache p).isSome then cache p
        else acc.local_done p := by
  intro l
  induction l with
  | nil =>
    intro acc p
    simp [dirPathsOf]
  | cons n t ih =>
    intro acc p
    simp only [List.foldl_cons]
    rw [ih]
    cases hdir : n.is_dir with
    | false =>
      have hdp : dirPathsOf (n :: t) = dirPathsOf t := by
        simp [dirPathsOf, List.filter_cons, hdir]
      rw [hdp, startStep_local_done]
      simp [hdir]
    | true =>
      have hdp : dirPathsOf (n :: t) = n.path :: dirPathsOf t := by
        simp [dirPathsOf, List.filter_cons, hdir]
      rw [hdp, startStep_local_done]
      by_cases hmem : p ∈ dirPathsOf t ∧ (cache p).isSome = true
      · rw [if_pos hmem, if_pos ⟨List.mem_cons_of_mem _ hmem.1, hmem.2⟩]
      · rw [if_neg hmem]
        by_cases hp : p = n.path
        · subst hp
          cases hc : cache n.path with
          | some r => simp [hdir]
          | none => simp [hc]
        · have h₁ : ¬ (n.is_dir = true ∧ p = n.path ∧ (cache n.path).isSome = true) := by
            rintro ⟨-, hpq, -⟩
            exact hp hpq
          have h₂ : ¬ (p ∈ n.path :: dirPathsOf t ∧ (cache p).isSome = true) := by
            rintro ⟨hm, hs⟩
            exact hmem ⟨(List.mem_cons.mp hm).resolve_left hp, hs⟩
          rw [if_neg h₁, if_neg h₂]

/-- Apart from `local_done` and `jobs`, the accumulators the node loop builds
do not depend on the cache at all. -/
theorem startFold_cache_indep (nodes0 : List TreeNodeM)
    (cache₁ cache₂ : Nat → Option DirLocalResult) :
    ∀ (l : List TreeNodeM) (acc₁ acc₂ : StartAcc),
      acc₁.dir_depth = acc₂.dir_depth →
      acc₁.parent_dir = acc₂.parent_dir →
      acc₁.pending_children = acc₂.pending_children →
      acc₁.children_unique = acc₂.children_unique →
      acc₁.children_hardlinks = acc₂.children_hardlinks →
      (l.foldl (startStep nodes0 cache₁) acc₁).dir_depth =
        (l.foldl (startStep nodes0 cache₂) acc₂).dir_depth ∧
      (l.foldl (startStep nodes0 cache₁) acc₁).parent_dir =
        (l.foldl (startStep nodes0 cache₂) acc₂).parent_dir ∧
      (l.foldl (startStep nodes0 cache₁) acc₁).pending_children =
        (l.foldl (startStep nodes0 cache₂) acc₂).pending_children ∧
      (l.foldl (startStep nodes0 cache₁) acc₁).children_unique =
        (l.foldl (startStep nodes0 cache₂) acc₂).children_unique ∧
      (l.foldl (startStep nodes0 cache₁) acc₁).children_hardlinks =
        (l.foldl (startStep nodes0 cache₂) acc₂).children_hardlinks := by
  intro l
  induction l with
  | nil =>
    intro acc₁ acc₂ h1 h2 h3 h4 h5
    exact ⟨h1, h2, h3, h4, h5⟩
  | cons n t ih =>
    intro acc₁ acc₂ h1 h2 h3 h4 h5
    simp only [List.foldl_cons]
    refine ih _ _ ?_ ?_ ?_ ?_ ?_
    · rw [startStep_dir_depth, startStep_dir_depth, h1]
    · rw [startStep_parent_dir, startStep_parent_dir, h2]
    · rw [startStep_pending_children, startStep_pending_children, h3]
    · rw [startStep_children_unique, startStep_children_unique, h4]
    · rw [startStep_children_hardlinks, startStep_children_hardlinks, h5]

/-- `start_size_computation` queues exactly the tree directories absent from
the `dir_local_sums` cache, in tree order. -/
theorem start_jobs (nodes : List TreeNodeM) (state : AppStateM) (max_threads : Nat) :
    (start_size_computation nodes state max_threads).2.2 =
      (dirPathsOf nodes).filter (fun p => (state.dir_local_sums p).isNone) := by
  have h : (start_size_computation nodes state max_threads).2.2 =
      (nodes.foldl (startStep nodes state.dir_local_sums) initStartAcc).jobs := rfl
  rw [h, startFold_jobs]
  simp [initStartAcc]

/-- `local_done` of a fresh computation, pointwise: the cached local result
where one exists for a tree directory, nothing anywhere else. -/
theorem start_local_done (nodes : List TreeNodeM) (state : AppStateM)
    (max_threads : Nat) (p : Nat) :
    (start_size_computation nodes state max_threads).2.1.local_done p =
      if p ∈ dirPathsOf nodes ∧ (state.dir_local_sums p).isSome then
        state.dir_local_sums p
      else none := by
  have h : (start_size_computation nodes state max_threads).2.1.local_done p =
      (nodes.foldl (startStep nodes state.dir_local_sums) initStartAcc).local_done p := rfl
  rw [h, startFold_local_done]
  rfl

-- ───────────────────────── draining the job queue ─────────────

/-- One delivery of a worker's `DirLocalDone` answer for job `d` through the
event loop: `apply_size_update` at the computation's own (current)
generation.  `w d` stands for the `LocalResult` the worker computed for `d`. -/
def applyJob (w : Nat → DirLocalResult) (sc : AppStateM × SizeComputeState)
    (d : Nat) : AppStateM × SizeComputeState :=
  let r := apply_size_update sc.1 (some sc.2) sc.2.generation
    (.DirLocalDone d (w d).unique_sum (w d).hardlinks)
  (r.1, (r.2.1).getD sc.2)

/-- Delivery of every queued job's `DirLocalDone` answer, in queue order. -/
def applyJobs (w : Nat → DirLocalResult) (jobs : List Nat)
    (sc : AppStateM × SizeComputeState) : AppStateM × SizeComputeState :=
  jobs.foldl (applyJob w) sc

theorem applyJobs_cons (w : Nat → DirLocalResult) (d : Nat) (t : List Nat)
    (sc : AppStateM × SizeComputeState) :
    applyJobs w (d :: t) sc = applyJobs w t (applyJob w sc d) := rfl

/-- A `DirLocalDone` delivered at the state's current generation writes the
result into both caches and leaves everything else alone. -/
theorem applyJob_of_match (w : Nat → DirLocalResult) {st : AppStateM}
    {c : SizeComputeState} (h : st.size_compute_generation = c.generation) (d : Nat) :
    applyJob w (st, c) d =
      ({ st with dir_local_sums := upd st.dir_local_sums d (some (w d)) },
       { c with local_done := upd c.local_done d (some (w d)) }) := by
  have h' : c.generation = st.size_compute_generation := h.symm
  simp [applyJob, apply_size_update, h']

/-- Characterisation of draining the whole job queue at a matching
generation: `dir_local_sums` and `local_done` now answer `w p` at every
queued path and are untouched elsewhere; every other component (including
`dir_sizes` and the whole computation core) is untouched. -/
theorem applyJobs_char (w : Nat → DirLocalResult) :
    ∀ (jobs : List Nat) (st : AppStateM) (c : SizeComputeState),
      st.size_compute_generation = c.generation →
      (applyJobs w jobs (st, c)).1.size_compute_generation = st.size_compute_generation ∧
      (applyJobs w jobs (st, c)).2.generation = c.generation ∧
      (applyJobs w jobs (st, c)).1.dir_sizes = st.dir_sizes ∧
      (applyJobs w jobs (st, c)).1.file_sizes = st.file_sizes ∧
      (applyJobs w jobs (st, c)).2.dirs = c.dirs ∧
      (applyJobs w jobs (st, c)).2.parent_dir = c.parent_dir ∧
      (applyJobs w jobs (st, c)).2.pending_children = c.pending_children ∧
      (applyJobs w jobs (st, c)).2.children_unique = c.children_unique ∧
      (applyJobs w jobs (st, c)).2.children_hardlinks = c.children_hardlinks ∧
      (applyJobs w jobs (st, c)).2.finished = c.finished ∧
      (∀ p, p ∈ jobs →
        (applyJobs w jobs (st, c)).1.dir_local_sums p = some (w p) ∧
        (applyJobs w jobs (st, c)).2.local_done p = some (w p)) ∧
      (∀ p, p ∉ jobs →
        (applyJobs w jobs (st, c)).1.dir_local_sums p = st.dir_local_sums p ∧
        (applyJobs w jobs (st, c)).2.local_done p = c.local_done p) := by
  intro jobs
  induction jobs with
  | nil =>
    intro st c _
    refine ⟨rfl, rfl, rfl, rfl, rfl, rfl, rfl, rfl, rfl, rfl, ?_, ?_⟩
    · intro p hp
      exact absurd hp (List.not_mem_nil p)
    · intro p _
      exact ⟨rfl, rfl⟩
  | cons d t ih =>
    intro st c h
    rw [applyJobs_cons, applyJob_of_match w h]
    have h' : ({ st with dir_local_sums := upd st.dir_local_sums d (some (w d)) } :
        AppStateM).size_compute_generation =
        ({ c with local_done := upd c.local_done d (some (w d)) } :
          SizeComputeState).generation := h
    obtain ⟨i1, i2, i3, i4, i5, i6, i7, i8, i9, i10, iin, iout⟩ := ih _ _ h'
    refine ⟨i1, i2, i3, i4, i5, i6, i7, i8, i9, i10, ?_, ?_⟩
    · intro p hp
      by_cases hpt : p ∈ t
      · exact iin p hpt
      · have hpd : p = d := by
          rcases List.mem_cons.mp hp with h1 | h1
          · exact h1
          · exact absurd h1 hpt
        obtain ⟨o1, o2⟩ := iout p hpt
        subst hpd
        constructor
        · rw [o1]
          exact upd_same _ _ _
        · rw [o2]
          exact upd_same _ _ _
    · intro p hp
      have hpd : p ≠ d := fun hx => hp (hx ▸ List.mem_cons_self d t)
      have hpt : p ∉ t := fun hx => hp (List.mem_cons_of_mem d hx)
      obtain ⟨o1, o2⟩ := iout p hpt
      constructor
      · rw [o1]
        exact upd_other _ _ _ hpd
      · rw [o2]
        exact upd_other _ _ _ hpd

-- ───────────────────────── one completed run ─────────────

/-- One completed size computation: start it, deliver every queued job's
`DirLocalDone` answer (oracle `w` gives the worker's `LocalResult` per
directory), then run the finalisation cascade.  A directory's total is
published only once all its children are finished, so draining the queue
before the cascade publishes the same totals as the event loop's
finalise-per-message schedule. -/
def runOnce (nodes : List TreeNodeM) (state : AppStateM) (max_threads : Nat)
    (w : Nat → DirLocalResult) : AppStateM × SizeComputeState :=
  let r := start_size_computation nodes state max_threads
  let sc := applyJobs w r.2.2 (r.1, r.2.1)
  finalize_ready_dirs sc.1 sc.2

/-- The cascade never touches `dir_local_sums`. -/
theorem finalize_ready_dirs_dls (st : AppStateM) (c : SizeComputeState) :
    (finalize_ready_dirs st c).1.dir_local_sums = st.dir_local_sums :=
  (finalizeFold_frame c.dirs st c).2.2.2.2.1

/-- After one completed run, `dir_local_sums` answers the worker's result at
every queued path and is otherwise what it was before the run. -/
theorem runOnce_dir_local_sums (nodes : List TreeNodeM) (state : AppStateM)
    (max_threads : Nat) (w : Nat → DirLocalResult) (p : Nat) :
    (runOnce nodes state max_threads w).1.dir_local_sums p =
      if p ∈ (start_size_computation nodes state max_threads).2.2 then some (w p)
      else state.dir_local_sums p := by
  have hgen : (start_size_computation nodes state max_threads).1.size_compute_generation =
      (start_size_computation nodes state max_threads).2.1.generation := rfl
  obtain ⟨-, -, -, -, -, -, -, -, -, -, ain, aout⟩ :=
    applyJobs_char w (start_size_computation nodes state max_threads).2.2
      (start_size_computation nodes state max_threads).1
      (start_size_computation nodes state max_threads).2.1 hgen
  have e : (runOnce nodes state max_threads w).1.dir_local_sums =
      (applyJobs w (start_size_computation nodes state max_threads).2.2
        ((start_size_computation nodes state max_threads).1,
         (start_size_computation nodes state max_threads).2.1)).1.dir_local_sums := by
    exact finalize_ready_dirs_dls _ _
  rw [e]
  by_cases hj : p ∈ (start_size_computation nodes state max_threads).2.2
  · rw [if_pos hj]
    exact (ain p hj).1
  · rw [if_neg hj, (aout p hj).1]
    rfl

/-- After one completed run, every tree directory has a cached local result. -/
theorem runOnce_covers (nodes : List TreeNodeM) (state : AppStateM)
    (max_threads : Nat) (w : Nat → DirLocalResult) :
    ∀ p ∈ dirPathsOf nodes,
      ((runOnce nodes state max_threads w).1.dir_local_sums p).isSome := by
  intro p hp
  rw [runOnce_dir_local_sums]
  by_cases hj : p ∈ (start_size_computation nodes state max_threads).2.2
  · rw [if_pos hj]
    rfl
  · rw [if_neg hj]
    rw [start_jobs] at hj
    cases hc : state.dir_local_sums p with
    | none => exact absurd (List.mem_filter.mpr ⟨hp, by simp [hc]⟩) hj
    | some r => rfl

/-- Restarted right after a completed run, `start_size_computation` queues no
job at all: the cache covers every tree directory. -/
theorem runOnce_restart_jobs_nil (nodes : List TreeNodeM) (state : AppStateM)
    (max_threads : Nat) (w : Nat → DirLocalResult) :
    (start_size_computation nodes (runOnce nodes state max_threads w).1
      max_threads).2.2 = [] := by
  rw [start_jobs]
  rw [List.filter_eq_nil_iff]
  intro p hp
  have h := runOnce_covers nodes state max_threads w p hp
  cases hc : (runOnce nodes state max_threads w).1.dir_local_sums p with
  | none => rw [hc] at h; exact Bool.noConfusion h
  | some r => simp [hc]

/-- Restarted right after a completed run, the fresh computation is
core-equal to the completed one (same dirs, accumulators and seeded
`local_done`), so the cascade republishes exactly the same `dir_sizes`. -/
theorem runOnce_restart_dir_sizes (nodes : List TreeNodeM) (state : AppStateM)
    (mt : Nat) (w : Nat → DirLocalResult) (p : Nat) :
    (runOnce nodes (runOnce nodes state mt w).1 mt w).1.dir_sizes p =
      (runOnce nodes state mt w).1.dir_sizes p := by
  set S := start_size_computation nodes state mt with hS
  have hgen : S.1.size_compute_generation = S.2.1.generation := rfl
  obtain ⟨-, -, -, -, a5, a6, a7, a8, a9, a10, ain, aout⟩ :=
    applyJobs_char w S.2.2 S.1 S.2.1 hgen
  set A := applyJobs w S.2.2 (S.1, S.2.1) with hA
  set R1 := finalize_ready_dirs A.1 A.2 with hR1f
  have hR1 : runOnce nodes state mt w = R1 := rfl
  rw [hR1]
  set S' := start_size_computation nodes R1.1 mt with hS'
  have hjobs2 : S'.2.2 = [] := by
    rw [hS']
    have h := runOnce_restart_jobs_nil nodes state mt w
    rw [hR1] at h
    exact h
  have hrun2 : runOnce nodes R1.1 mt w = finalize_ready_dirs S'.1 S'.2.1 := by
    have e : runOnce nodes R1.1 mt w =
        finalize_ready_dirs (applyJobs w S'.2.2 (S'.1, S'.2.1)).1
          (applyJobs w S'.2.2 (S'.1, S'.2.1)).2 := rfl
    rw [e, hjobs2]
    rfl
  obtain ⟨i1, i2, i3, i4, i5⟩ := startFold_cache_indep nodes (R1.1.dir_local_sums)
    (state.dir_local_sums) nodes initStartAcc initStartAcc rfl rfl rfl rfl rfl
  have hdl : (nodes.foldl (startStep nodes R1.1.dir_local_sums) initStartAcc).dirs =
      (nodes.foldl (startStep nodes state.dir_local_sums) initStartAcc).dirs :=
    (startFold_dirs nodes _ nodes initStartAcc).trans
      (startFold_dirs nodes _ nodes initStartAcc).symm
  have hcache1 : ∀ q, R1.1.dir_local_sums q =
      if q ∈ S.2.2 then some (w q) else state.dir_local_sums q := by
    intro q
    have h := runOnce_dir_local_sums nodes state mt w q
    rw [hR1] at h
    exact h
  have hjobs1 : S.2.2 =
      (dirPathsOf nodes).filter (fun q => (state.dir_local_sums q).isNone) := by
    rw [hS]
    exact start_jobs nodes state mt
  have hce : CoreEq S'.2.1 A.2 := by
    refine ⟨?_, ?_, ?_, ?_, ?_, ?_, ?_⟩
    · rw [a5]
      calc S'.2.1.dirs
          = (nodes.foldl (startStep nodes R1.1.dir_local_sums) initStartAcc).dirs.mergeSort
              (deeperFirst
                (nodes.foldl (startStep nodes R1.1.dir_local_sums) initStartAcc).dir_depth) :=
            rfl
        _ = (nodes.foldl (startStep nodes state.dir_local_sums) initStartAcc).dirs.mergeSort
              (deeperFirst
                (nodes.foldl (startStep nodes state.dir_local_sums) initStartAcc).dir_depth) := by
            rw [hdl, i1]
        _ = S.2.1.dirs := rfl
    · intro q
      rw [a6]
      have e : S'.2.1.parent_dir = S.2.1.parent_dir := by
        calc S'.2.1.parent_dir
            = (nodes.foldl (startStep nodes R1.1.dir_local_sums) initStartAcc).parent_dir :=
              rfl
          _ = (nodes.foldl (startStep nodes state.dir_local_sums) initStartAcc).parent_dir :=
              i2
          _ = S.2.1.parent_dir := rfl
      rw [e]
    · intro q
      rw [a7]
      have e : S'.2.1.pending_children = S.2.1.pending_children := by
        calc S'.2.1.pending_children
            = (nodes.foldl (startStep nodes R1.1.dir_local_sums) initStartAcc).pending_children :=
              rfl
          _ = (nodes.foldl (startStep nodes state.dir_local_sums) initStartAcc).pending_children :=
              i3
          _ = S.2.1.pending_children := rfl
      rw [e]
    · intro q
      rw [a8]
      have e : S'.2.1.children_unique = S.2.1.children_unique := by
        calc S'.2.1.children_unique
            = (nodes.foldl (startStep nodes R1.1.dir_local_sums) initStartAcc).children_unique :=
              rfl
          _ = (nodes.foldl (startStep nodes state.dir_local_sums) initStartAcc).children_unique :=
              i4
          _ = S.2.1.children_unique := rfl
      rw [e]
    · intro q
      rw [a9]
      have e : S'.2.1.children_hardlinks = S.2.1.children_hardlinks := by
        calc S'.2.1.children_hardlinks
            = (nodes.foldl (startStep nodes R1.1.dir_local_sums) initStartAcc).children_hardlinks :=
              rfl
          _ = (nodes.foldl (startStep nodes state.dir_local_sums) initStartAcc).children_hardlinks :=
              i5
          _ = S.2.1.children_hardlinks := rfl
      rw [e]
    · intro q
      have e1 : S'.2.1.local_done q =
          if q ∈ dirPathsOf nodes ∧ (R1.1.dir_local_sums q).isSome then
            R1.1.dir_local_sums q
          else none := by
        rw [hS']
        exact start_local_done nodes R1.1 mt q
      have e2 : S.2.1.local_done q =
          if q ∈ dirPathsOf nodes ∧ (state.dir_local_sums q).isSome then
            state.dir_local_sums q
          else none := by
        rw [hS]
        exact start_local_done nodes state mt q
      by_cases hj : q ∈ S.2.2
      · have hqd : q ∈ dirPathsOf nodes := by
          rw [hjobs1] at hj
          exact List.mem_of_mem_filter hj
        have e3 : R1.1.dir_local_sums q = some (w q) := by
          rw [hcache1 q, if_pos hj]
        rw [e1, (ain q hj).2, e3, if_pos ⟨hqd, rfl⟩]
      · have e3 : R1.1.dir_local_sums q = state.dir_local_sums q := by
          rw [hcache1 q, if_neg hj]
        rw [e1, e3, (aout q hj).2, e2]
    · intro q
      rw [a10]
      rfl
  have hfold2 : finalize_ready_dirs S'.1 S'.2.1 =
      A.2.dirs.foldl finalizeStep (S'.1, S'.2.1) := by
    have e : finalize_ready_dirs S'.1 S'.2.1 =
        S'.2.1.dirs.foldl finalizeStep (S'.1, S'.2.1) := rfl
    rw [e, hce.1]
  obtain ⟨-, hds⟩ := finalizeFold_congr A.2.dirs S'.1 A.1 S'.2.1 A.2 hce
  have hfold1 : R1 = A.2.dirs.foldl finalizeStep (A.1, A.2) := rfl
  rw [hrun2, hfold2]
  rcases hds p with h | ⟨h1, h2⟩
  · rw [h, ← hfold1]
  · rw [h1]
    rfl

/-- C6: `start_size_computation` seeds `local_done[d]` with the cached
`LocalResult` for every tree directory `d` present in `dir_local_sums` and
queues exactly the tree directories absent from the cache as jobs; and after
a completed run (every queued job answered by the worker oracle `w`, then
the cascade run), starting again with the tree unchanged queues zero jobs
and the second run republishes pointwise identical `dir_sizes`. -/
theorem c6_restart_from_cache (nodes : List TreeNodeM) (state : AppStateM)
    (max_threads : Nat) (w : Nat → DirLocalResult) :
    (∀ n ∈ nodes, n.is_dir = true → ∀ r, state.dir_local_sums n.path = some r →
      (start_size_computation nodes state max_threads).2.1.local_done n.path = some r) ∧
    ((start_size_computation nodes state max_threads).2.2 =
      (dirPathsOf nodes).filter (fun p => (state.dir_local_sums p).isNone)) ∧
    ((start_size_computation nodes (runOnce nodes state max_threads w).1
        max_threads).2.2 = []) ∧
    (∀ p, (runOnce nodes (runOnce nodes state max_threads w).1 max_threads w).1.dir_sizes p =
      (runOnce nodes state max_threads w).1.dir_sizes p) := by
  refine ⟨?_, start_jobs nodes state max_threads,
    runOnce_restart_jobs_nil nodes state max_threads w,
    fun p => runOnce_restart_dir_sizes nodes state max_threads w p⟩
  intro n hn hdir r hr
  rw [start_local_done]
  have hmem : n.path ∈ dirPathsOf nodes :=
    List.mem_map.mpr ⟨n, List.mem_filter.mpr ⟨hn, hdir⟩, rfl⟩
  rw [if_pos ⟨hmem, by rw [hr]; rfl⟩, hr]

/-- A three-node tree for the C6 witness: root directory `0` with a
subdirectory `1` and a file `2`; directory `1` is already cached. -/
def exNodes : List TreeNodeM :=
  [⟨0, true, 0, none, [1, 2]⟩, ⟨1, true, 1, some 0, []⟩, ⟨2, false, 1, some 0, []⟩]

/-- State for the C6 witness: `dir_local_sums` caches directory `1` only. -/
def exStateC6 : AppStateM where
  size_compute_generation := 0
  file_sizes := fun _ => none
  dir_local_sums := fun p => if p = 1 then some ⟨5, []⟩ else none
  dir_sizes := fun _ => none

/-- Worker oracle for the C6 witness. -/
def exOracle : Nat → DirLocalResult := fun _ => ⟨3, []⟩

/-- Witness for C6 at the concrete three-node tree: the cached directory `1`
is seeded, the jobs are the cache misses, the restarted run queues nothing,
and it republishes the root's total unchanged. -/
theorem c6_witness :
    (start_size_computation exNodes exStateC6 4).2.1.local_done 1 =
      some ⟨5, ([] : InodeMap)⟩ ∧
    (start_size_computation exNodes exStateC6 4).2.2 =
      (dirPathsOf exNodes).filter (fun p => (exStateC6.dir_local_sums p).isNone) ∧
    (start_size_computation exNodes (runOnce exNodes exStateC6 4 exOracle).1 4).2.2 = [] ∧
    (runOnce exNodes (runOnce exNodes exStateC6 4 exOracle).1 4 exOracle).1.dir_sizes 0 =
      (runOnce exNodes exStateC6 4 exOracle).1.dir_sizes 0 := by
  obtain ⟨h1, h2, h3, h4⟩ := c6_restart_from_cache exNodes exStateC6 4 exOracle
  have hn : (⟨1, true, 1, some 0, []⟩ : TreeNodeM) ∈ exNodes := by
    simp [exNodes]
  exact ⟨h1 _ hn rfl ⟨5, []⟩ rfl, h2, h3, h4 0⟩
